import Mathlib

/-!
Condition rewriting in `limitless.Query`.

A shallow embedding of the condition-expression rewriter of `Query`
(`src/limitless.go`, lines 152-207) and of the error paths of `Scan` and
`UpdateItem`, followed by the properties proved about them.

Go strings are byte sequences; a byte is modelled as a natural number and a
string as a list of them.
-/

namespace Limitless

/-! ## Strings and the library functions used by `Query` -/

/-- A Go string: its sequence of bytes. -/
abbrev GoString := List Nat

/-- The byte sequence of an ASCII literal. -/
def ascii (s : String) : GoString := s.toList.map Char.toNat

/-- Every byte of the string is an ASCII byte. -/
def IsAscii (s : GoString) : Prop := ∀ c ∈ s, c < 128

/-- The Go conversion `string(b)` of a byte `b`: the UTF-8 encoding of the code
point `b`, one byte below 128 and two bytes from 128 on. -/
def byteToString (b : Nat) : GoString :=
  if b < 128 then [b] else [192 + b / 64, 128 + b % 64]

/-- Digits of `n`, most significant first, pushed in front of `acc`. -/
def digitsAux : Nat → Nat → GoString → GoString
  | 0, _, acc => acc
  | fuel + 1, n, acc =>
    if n < 10 then (48 + n) :: acc
    else digitsAux fuel (n / 10) ((48 + n % 10) :: acc)

/-- The result of `fmt.Sprintf("%d", i)` for a slice index `i`. -/
def sprintfD (i : Nat) : GoString := digitsAux (i + 1) i []

/-- The function `strings.TrimPrefix(s, pre)`. -/
def TrimPrefix (s pre : GoString) : GoString :=
  if pre.isPrefixOf s then s.drop pre.length else s

/-- The scan of `strings.ReplaceAll` for a non-empty `old`: left to right, an
occurrence of `old` at the current position is replaced by `new` and the scan
resumes after it. The counter is the number of bytes of the current occurrence
still to be skipped. -/
def replaceFrom (old new : GoString) : Nat → GoString → GoString
  | _, [] => []
  | skip + 1, _ :: rest => replaceFrom old new skip rest
  | 0, c :: rest =>
    if old.isPrefixOf (c :: rest) then new ++ replaceFrom old new (old.length - 1) rest
    else c :: replaceFrom old new 0 rest

/-- The function `strings.ReplaceAll(s, old, new)` for a non-empty `old`: every
non-overlapping occurrence of `old`, found left to right, is replaced by `new`.
For an empty `old` Go inserts `new` at every rune boundary; that case is not
modelled (the string is returned as it is) and never arises in `Query`, whose
tokens all start with their prefix character (`scanToken_ne_nil`). -/
def ReplaceAll (s old new : GoString) : GoString :=
  if old = [] then s else replaceFrom old new 0 s

/-! ## Go maps -/

/-- A Go map with string keys: the entry of each key, if any. -/
abbrev GoMap (α : Type) := GoString → Option α

/-- The map made by `make(map[string]T)`; a nil map reads the same. -/
def GoMap.empty {α : Type} : GoMap α := fun _ => none

/-- The assignment `m[k] = v`. -/
def GoMap.set {α : Type} (m : GoMap α) (k : GoString) (v : α) : GoMap α :=
  fun key => if key = k then some v else m key

/-- The read `m[k]`, which yields the zero value of the element type when the
key is absent. -/
def GoMap.index {α : Type} (m : GoMap α) (k : GoString) (zero : α) : α :=
  (m k).getD zero

/-! ## The tokenizer (lines 155-180) -/

/-- The local variables the scanning loop updates. -/
structure ScanState where
  keyNameList : List GoString
  valueNameList : List GoString
  parsedCondition : GoString
deriving DecidableEq

/-- The inner loop (lines 169-172): from the prefix character on, every byte up
to the next space or the end of the string is appended, converted with
`string(..)`, to `keyName`. Returns `keyName` and the unread rest. -/
def scanToken : GoString → GoString → GoString × GoString
  | [], keyName => (keyName, [])
  | c :: rest, keyName =>
    if c = 32 then (keyName, c :: rest)
    else scanToken rest (keyName ++ byteToString c)

/-- The outer loop (lines 158-180) on the unread part of the condition. Each
iteration reads at least one byte, so `fuel` equal to the length of the unread
part is enough (`scanLoop_fuel`). -/
def scanLoop : Nat → GoString → ScanState → ScanState
  | 0, _, st => st
  | _ + 1, [], st => st
  | fuel + 1, c :: rest, st =>
    if c ≠ 58 ∧ c ≠ 35 then
      scanLoop fuel rest { st with parsedCondition := st.parsedCondition ++ byteToString c }
    else
      let r := scanToken (c :: rest) []
      if c = 35 then
        scanLoop fuel r.2 { st with keyNameList := st.keyNameList ++ [r.1] }
      else
        scanLoop fuel r.2 { st with valueNameList := st.valueNameList ++ [r.1] }

/-- The token lists built by lines 155-180 for a condition. -/
def tokenize (condition : GoString) : ScanState :=
  scanLoop condition.length condition ⟨[], [], []⟩

/-! ## Substitution (lines 182-193) -/

/-- The literal `"#KEY"`. -/
def keyLit : GoString := [35, 75, 69, 89]

/-- The literal `":VALUE"`. -/
def valueLit : GoString := [58, 86, 65, 76, 85, 69]

/-- The generated name `"#KEY" + fmt.Sprintf("%d", i)`. -/
def replacedKey (i : Nat) : GoString := keyLit ++ sprintfD i

/-- The generated name `":VALUE" + fmt.Sprintf("%d", i)`. -/
def replacedValue (i : Nat) : GoString := valueLit ++ sprintfD i

/-- The loop of lines 183-187 from index `i` on, over the condition and the map
`expressionAttributeNames`. -/
def nameLoop : List GoString → Nat → GoString × GoMap GoString → GoString × GoMap GoString
  | [], _, st => st
  | k :: ks, i, st =>
    nameLoop ks (i + 1)
      (ReplaceAll st.1 k (replacedKey i), st.2.set (replacedKey i) (TrimPrefix k [35]))

/-- The loop of lines 189-193 from index `i` on, over the condition and the map
`ExpressionAttributeValues`. A value of type `any` is `none` for nil. -/
def valueLoop {V : Type} (values : GoMap (Option V)) :
    List GoString → Nat → GoString × GoMap (Option V) → GoString × GoMap (Option V)
  | [], _, st => st
  | k :: ks, i, st =>
    valueLoop values ks (i + 1)
      (ReplaceAll st.1 k (replacedValue i), st.2.set (replacedValue i) (values.index k none))

/-- What lines 152-193 compute. -/
structure Rewritten (V : Type) where
  condition : GoString
  expressionAttributeNames : GoMap GoString
  ExpressionAttributeValues : GoMap (Option V)

/-- Lines 152-193 of `Query`: tokenize the condition, then substitute the name
tokens and the value tokens. -/
def rewrite {V : Type} (condition : GoString) (values : GoMap (Option V)) : Rewritten V :=
  let toks := tokenize condition
  let n := nameLoop toks.keyNameList 0 (condition, GoMap.empty)
  let v := valueLoop values toks.valueNameList 0 (n.1, GoMap.empty)
  ⟨v.1, n.2, v.2⟩

/-- Lines 200-203: the caller's `ExpressionAttributeNames`, given by its entries
in the order the `range` loop visits them, are copied over the generated map. -/
def mergeNames (generated : GoMap GoString) (entries : List (GoString × GoString)) :
    GoMap GoString :=
  entries.foldl (fun m e => m.set e.1 e.2) generated

/-- The map assigned to `queryInput.ExpressionAttributeNames` at line 207: the
generated name map with the caller's entries copied over it. -/
def queryAttributeNames {V : Type} (condition : GoString) (values : GoMap (Option V))
    (callerNames : List (GoString × GoString)) : GoMap GoString :=
  mergeNames (rewrite condition values).expressionAttributeNames callerNames

/-! ## Values used in examples -/

/-- A sample of the values a caller may put in a `map[string]any`. -/
inductive GoValue where
  | str (s : GoString)
  | int (n : Int)
deriving DecidableEq

/-! ## `GetItem`, `Scan` and `UpdateItem` -/

/-- The function `GetItem` (lines 24-47) over an arbitrary marshaler, remote
call and unmarshaler; `itemLen` is `len(res.Item)`. The result is the pair
`GetItem` returns. -/
def GetItem {K M Item T E : Type} (marshal : K → M × Option E)
    (ddbGetItem : GoString → M → Except E Item) (itemLen : Item → Nat)
    (unmarshal : Item → Except E T) (tableName : GoString) (key : K) : Option T × Option E :=
  match marshal key with
  | (_, some err) => (none, some err)
  | (Key, none) =>
    match ddbGetItem tableName Key with
    | .error err => (none, some err)
    | .ok res =>
      if itemLen res = 0 then (none, none)
      else
        match unmarshal res with
        | .error err => (none, some err)
        | .ok nout => (some nout, none)

/-- The fields of the response of the remote scan that `Scan` reads. -/
structure ScanOutput (Item Key : Type) where
  Items : List Item
  LastEvaluatedKey : Option Key

/-- The loop of lines 343-349 of `Scan`. The variable `err` is the one assigned
by the remote call at line 329; the result is the triple `Scan` returns, a nil
slice, key or error being `none`. -/
def scanItems {Item Key T E : Type} (unmarshal : Item → Except E T) (err : Option E)
    (lek : Option Key) : List Item → List T → Option (List T) × Option Key × Option E
  | [], out => (some out, lek, none)
  | v :: vs, out =>
    match unmarshal v with
    | .error _ => (none, none, err)
    | .ok item => scanItems unmarshal err lek vs (out ++ [item])

/-- The function `Scan` (lines 328-352) over an arbitrary remote call and an
arbitrary unmarshaler. After a successful remote call `err` is nil. -/
def Scan {Req Item Key T E : Type} (ddbScan : Req → Except E (ScanOutput Item Key))
    (unmarshal : Item → Except E T) (request : Req) :
    Option (List T) × Option Key × Option E :=
  match ddbScan request with
  | .error e => (none, none, some e)
  | .ok resp => scanItems unmarshal none resp.LastEvaluatedKey resp.Items []

/-- The request `UpdateItem` sends. -/
structure UpdateItemInput (M : Type) where
  TableName : GoString
  Key : M
  UpdateExpression : GoString
  ExpressionAttributeNames : GoMap GoString
  ExpressionAttributeValues : M

/-- The function `UpdateItem` (lines 259-293) from line 277 on, over an
arbitrary marshaler and remote call; `fields`, `values` and `updateExpression`
are what the reflection loop of lines 265-277 built. A marshal call returns its
map together with its error, and lines 278-279 drop the error. -/
def UpdateItem {K Vals M E : Type} (marshalKey : K → M × Option E)
    (marshalValues : Vals → M × Option E) (ddbUpdateItem : UpdateItemInput M → Option E)
    (tableName : GoString) (key : K) (fields : GoMap GoString) (values : Vals)
    (updateExpression : GoString) : Option E :=
  let keyMap := (marshalKey key).1
  let fieldValues := (marshalValues values).1
  match ddbUpdateItem ⟨tableName, keyMap, updateExpression, fields, fieldValues⟩ with
  | some err => some err
  | none => none

/-! ## Reference definitions for the statements -/

/-- A byte that starts a token: `#` or `:`. -/
def isTokenStart (c : Nat) : Bool := c = 35 || c = 58

/-- Puts a byte in front of the first segment. -/
def consHead (c : Nat) : List GoString → List GoString
  | [] => [[c]]
  | r :: rs => (c :: r) :: rs

/-- The segments of a string between its space characters, as given by
`strings.Split(s, " ")`. -/
def splitOnSpace : GoString → List GoString
  | [] => [[]]
  | c :: rest => if c = 32 then [] :: splitOnSpace rest else consHead c (splitOnSpace rest)

/-- The text of a segment before its first `#` or `:`. -/
def textOf (seg : GoString) : GoString := seg.takeWhile (fun c => !isTokenStart c)

/-- The part of a segment from its first `#` or `:` on; empty when it has none. -/
def tokenOf (seg : GoString) : GoString := seg.dropWhile (fun c => !isTokenStart c)

/-- The tokens of a condition as the specification describes them: one per
segment that has a `#` or `:`, in left-to-right order. -/
def specTokens (condition : GoString) : List GoString :=
  ((splitOnSpace condition).map tokenOf).filter (fun t => t ≠ [])

/-- Joins segments with single spaces. -/
def joinSpace : List GoString → GoString
  | [] => []
  | [r] => r
  | r :: r2 :: rs => r ++ 32 :: joinSpace (r2 :: rs)

/-- The index of the first occurrence of `t` in a list (its length when there
is none). -/
def firstIndex (t : GoString) : List GoString → Nat
  | [] => 0
  | k :: ks => if k = t then 0 else firstIndex t ks + 1

/-- The generated name of a token, given the two token lists: its prefix literal
followed by the index of the first occurrence of its text in its own list. -/
def generatedName (keys vals : List GoString) (t : GoString) : GoString :=
  if t.head? = some 35 then replacedKey (firstIndex t keys) else replacedValue (firstIndex t vals)

/-- A segment with its token, if it has one, replaced by `f` of it. -/
def substSegment (f : GoString → GoString) (seg : GoString) : GoString :=
  textOf seg ++ (if tokenOf seg = [] then [] else f (tokenOf seg))

/-- The condition with the token of every segment replaced in place by `f` of
it and everything else unchanged. -/
def substituteTokens (f : GoString → GoString) (condition : GoString) : GoString :=
  joinSpace ((splitOnSpace condition).map (substSegment f))

/-- The string `t` occurs in `s`. -/
abbrev Occurs (t s : GoString) : Prop := t <:+: s

/-- The texts before the first `#` or `:` of the segments of a string, read
left to right; `seen` tells whether the current segment already had one. -/
def textsFrom : Bool → GoString → List GoString
  | _, [] => [[]]
  | seen, c :: rest =>
    if c = 32 then [] :: textsFrom false rest
    else if seen || isTokenStart c then textsFrom true rest
    else consHead c (textsFrom false rest)

/-- The number a digit string denotes. -/
def decodeD (s : GoString) : Nat := s.foldl (fun a d => 10 * a + (d - 48)) 0

/-- A word: a string that starts with `#` or `:` and has no space. -/
def Wordlike (w : GoString) : Prop :=
  (∃ c rest, w = c :: rest ∧ isTokenStart c = true) ∧ 32 ∉ w

/-! ## Auxiliary definitions for the proofs -/

/-- The condition as either substitution loop updates it, `gen` being the
generator of the replacement names. -/
def substLoop (gen : Nat → GoString) : List GoString → Nat → GoString → GoString
  | [], _, c => c
  | k :: ks, i, c => substLoop gen ks (i + 1) (ReplaceAll c k (gen i))

/-- The text that stands for token `t` once the tokens of `done` have been
substituted: its generated name when `t` is among them, `f0 t` otherwise. -/
def renameDone (gen : Nat → GoString) (f0 : GoString → GoString) (done : List GoString)
    (t : GoString) : GoString :=
  if t ∈ done then gen (firstIndex t done) else f0 t

/-- The tokens of a list of segments, in order. -/
def segmentTokens (segs : List GoString) : List GoString :=
  (segs.map tokenOf).filter (fun t => t ≠ [])

/-- Tells whether a token starts with `#`. -/
def isNameToken (t : GoString) : Bool := decide (t.head? = some 35)

/-! ## Example inputs -/

/-- The condition `"#name = :val AND #age > :minAge"`. -/
def roundTripCondition : GoString := ascii "#name = :val AND #age > :minAge"

/-- The value map with `":val"` set to `"Alice"` and `":minAge"` set to `21`. -/
def roundTripValues : GoMap (Option GoValue) :=
  (GoMap.empty.set (ascii ":val") (some (GoValue.str (ascii "Alice")))).set
    (ascii ":minAge") (some (GoValue.int 21))

/-- The condition `"#name = :val OR #name = :val2"`. -/
def duplicateCondition : GoString := ascii "#name = :val OR #name = :val2"

/-- A value map with entries for `":val"` and `":val2"`. -/
def duplicateValues (a b : GoValue) : GoMap (Option GoValue) :=
  (GoMap.empty.set (ascii ":val") (some a)).set (ascii ":val2") (some b)

/-- The condition `"#é"` in UTF-8: the bytes 0x23 0xC3 0xA9. -/
def accentCondition : GoString := [35, 195, 169]

/-- The condition `"#a = :v OR #a = :w"`, in which the name token occurs twice. -/
def repeatedCondition : GoString := ascii "#a = :v OR #a = :w"

/-- The condition `"#id = :id AND #sk > :lo"`. -/
def plainCondition : GoString := ascii "#id = :id AND #sk > :lo"

/-! ## Decimal indices and generated names -/

theorem foldl_digitsAux (fuel n : Nat) (acc : GoString) (h : n < fuel) :
    (digitsAux fuel n acc).foldl (fun a d => 10 * a + (d - 48)) 0 =
      acc.foldl (fun a d => 10 * a + (d - 48)) n := by
  induction fuel generalizing n acc with
  | zero => omega
  | succ fuel ih =>
    unfold digitsAux
    split
    · simp
    · have h1 : n / 10 < fuel := by omega
      rw [ih (n / 10) ((48 + n % 10) :: acc) h1]
      simp only [List.foldl_cons]
      congr 1
      omega

theorem decodeD_sprintfD (n : Nat) : decodeD (sprintfD n) = n := by
  have h := foldl_digitsAux (n + 1) n [] (by omega)
  simpa [decodeD, sprintfD] using h

theorem sprintfD_injective {i j : Nat} (h : sprintfD i = sprintfD j) : i = j := by
  have h1 := congrArg decodeD h
  simpa [decodeD_sprintfD] using h1

theorem digitsAux_digits (fuel n : Nat) (acc : GoString) :
    ∀ d ∈ digitsAux fuel n acc, (48 ≤ d ∧ d ≤ 57) ∨ d ∈ acc := by
  induction fuel generalizing n acc with
  | zero => intro d hd; exact Or.inr hd
  | succ fuel ih =>
    intro d hd
    unfold digitsAux at hd
    split at hd
    · rcases List.mem_cons.1 hd with h | h
      · left; omega
      · exact Or.inr h
    · rcases ih _ _ d hd with h | h
      · exact Or.inl h
      · rcases List.mem_cons.1 h with h | h
        · left; omega
        · exact Or.inr h

theorem sprintfD_digits (n : Nat) : ∀ d ∈ sprintfD n, 48 ≤ d ∧ d ≤ 57 := by
  intro d hd
  rcases digitsAux_digits _ _ _ d hd with h | h
  · exact h
  · simp at h

theorem replacedKey_injective {i j : Nat} (h : replacedKey i = replacedKey j) : i = j :=
  sprintfD_injective (List.append_cancel_left h)

theorem replacedValue_injective {i j : Nat} (h : replacedValue i = replacedValue j) : i = j :=
  sprintfD_injective (List.append_cancel_left h)

/-! ## The generated maps -/

theorem nameLoop_other (ks : List GoString) (i : Nat) (st : GoString × GoMap GoString)
    (key : GoString) (h : ∀ j, j < ks.length → key ≠ replacedKey (i + j)) :
    (nameLoop ks i st).2 key = st.2 key := by
  induction ks generalizing i st with
  | nil => rfl
  | cons k ks ih =>
    have h0 : key ≠ replacedKey i := by simpa using h 0 (by simp)
    rw [nameLoop, ih]
    · simp [GoMap.set, h0]
    · intro j hj
      have := h (j + 1) (by simpa using hj)
      rwa [show i + (j + 1) = i + 1 + j by omega] at this

theorem nameLoop_get (ks : List GoString) (i : Nat) (st : GoString × GoMap GoString)
    (j : Nat) (k : GoString) (h : ks[j]? = some k) :
    (nameLoop ks i st).2 (replacedKey (i + j)) = some (TrimPrefix k [35]) := by
  induction ks generalizing i st j with
  | nil => simp at h
  | cons k0 ks ih =>
    rw [nameLoop]
    cases j with
    | zero =>
      simp at h
      subst h
      rw [nameLoop_other]
      · simp [GoMap.set]
      · intro j _ hj
        have := replacedKey_injective hj
        omega
    | succ j =>
      have h1 : ks[j]? = some k := by simpa using h
      rw [show i + (j + 1) = i + 1 + j by omega]
      exact ih (i + 1) _ j h1

theorem valueLoop_other {V : Type} (values : GoMap (Option V)) (ks : List GoString) (i : Nat)
    (st : GoString × GoMap (Option V)) (key : GoString)
    (h : ∀ j, j < ks.length → key ≠ replacedValue (i + j)) :
    (valueLoop values ks i st).2 key = st.2 key := by
  induction ks generalizing i st with
  | nil => rfl
  | cons k ks ih =>
    have h0 : key ≠ replacedValue i := by simpa using h 0 (by simp)
    rw [valueLoop, ih]
    · simp [GoMap.set, h0]
    · intro j hj
      have := h (j + 1) (by simpa using hj)
      rwa [show i + (j + 1) = i + 1 + j by omega] at this

theorem valueLoop_get {V : Type} (values : GoMap (Option V)) (ks : List GoString) (i : Nat)
    (st : GoString × GoMap (Option V)) (j : Nat) (k : GoString) (h : ks[j]? = some k) :
    (valueLoop values ks i st).2 (replacedValue (i + j)) = some (values.index k none) := by
  induction ks generalizing i st j with
  | nil => simp at h
  | cons k0 ks ih =>
    rw [valueLoop]
    cases j with
    | zero =>
      simp at h
      subst h
      rw [valueLoop_other]
      · simp [GoMap.set]
      · intro j _ hj
        have := replacedValue_injective hj
        omega
    | succ j =>
      have h1 : ks[j]? = some k := by simpa using h
      rw [show i + (j + 1) = i + 1 + j by omega]
      exact ih (i + 1) _ j h1

/-! ## Shape of the discovered tokens -/

theorem byteToString_no_space (c : Nat) (h : c ≠ 32) : 32 ∉ byteToString c := by
  unfold byteToString
  split
  · simpa using h.symm
  · simp; omega

theorem scanToken_fst (s acc : GoString) :
    (scanToken s acc).1 = acc ++ ((s.takeWhile (fun c => c != 32)).map byteToString).flatten := by
  induction s generalizing acc with
  | nil => simp [scanToken]
  | cons c rest ih =>
    unfold scanToken
    by_cases h : c = 32
    · simp [h]
    · simp [h, ih]

theorem scanToken_snd (s acc : GoString) :
    (scanToken s acc).2 = s.dropWhile (fun c => c != 32) := by
  induction s generalizing acc with
  | nil => simp [scanToken]
  | cons c rest ih =>
    unfold scanToken
    by_cases h : c = 32
    · simp [h]
    · simp [h, ih]

theorem scanToken_wordlike (c : Nat) (rest : GoString) (h : isTokenStart c = true) :
    Wordlike (scanToken (c :: rest) []).1 ∧ (scanToken (c :: rest) []).1.head? = some c := by
  have hc : c = 35 ∨ c = 58 := by simpa [isTokenStart] using h
  have hb : byteToString c = [c] := by
    rcases hc with h | h <;> simp [h, byteToString]
  have hc32 : (c != 32) = true := by
    rcases hc with h | h <;> simp [h]
  rw [scanToken_fst]
  simp only [List.nil_append, List.takeWhile_cons, hc32, if_true, List.map_cons, List.flatten_cons, hb,
    List.singleton_append, List.head?_cons, and_true]
  refine ⟨⟨c, _, rfl, h⟩, ?_⟩
  intro hm
  rcases List.mem_cons.1 hm with h1 | h1
  · rcases hc with h | h <;> omega
  · rcases List.mem_flatten.1 h1 with ⟨l, hl, h32⟩
    rcases List.mem_map.1 hl with ⟨d, hd, rfl⟩
    have := List.mem_takeWhile_imp hd
    exact byteToString_no_space d (by simpa using this) h32

theorem scanToken_ne_nil (c : Nat) (rest : GoString) (h : isTokenStart c = true) :
    (scanToken (c :: rest) []).1 ≠ [] := by
  intro h0
  have := (scanToken_wordlike c rest h).2
  rw [h0] at this
  simp at this

theorem scanLoop_tokens (fuel : Nat) (s : GoString) (st : ScanState)
    (hk : ∀ k ∈ st.keyNameList, Wordlike k ∧ k.head? = some 35)
    (hv : ∀ k ∈ st.valueNameList, Wordlike k ∧ k.head? = some 58) :
    (∀ k ∈ (scanLoop fuel s st).keyNameList, Wordlike k ∧ k.head? = some 35) ∧
    (∀ k ∈ (scanLoop fuel s st).valueNameList, Wordlike k ∧ k.head? = some 58) := by
  induction fuel generalizing s st with
  | zero => exact ⟨hk, hv⟩
  | succ fuel ih =>
    cases s with
    | nil => exact ⟨hk, hv⟩
    | cons c rest =>
      unfold scanLoop
      split
      · exact ih _ _ hk hv
      · rename_i hc
        have hc2 : c = 58 ∨ c = 35 := by omega
        have hs : isTokenStart c = true := by
          rcases hc2 with h | h <;> simp [h, isTokenStart]
        have hw := scanToken_wordlike c rest hs
        simp only []
        split
        · rename_i h35
          apply ih
          · intro k hk1
            rcases List.mem_append.1 hk1 with h | h
            · exact hk k h
            · simp at h
              subst h
              exact ⟨hw.1, by rw [hw.2, h35]⟩
          · exact hv
        · rename_i h35
          have h58 : c = 58 := by omega
          apply ih
          · exact hk
          · intro k hk1
            rcases List.mem_append.1 hk1 with h | h
            · exact hv k h
            · simp at h
              subst h
              exact ⟨hw.1, by rw [hw.2, h58]⟩

theorem tokenize_tokens (condition : GoString) :
    (∀ k ∈ (tokenize condition).keyNameList, Wordlike k ∧ k.head? = some 35) ∧
    (∀ k ∈ (tokenize condition).valueNameList, Wordlike k ∧ k.head? = some 58) :=
  scanLoop_tokens _ _ _ (by simp) (by simp)

/-! ## `ReplaceAll` -/

theorem replaceFrom_skip (old new : GoString) (n : Nat) (s : GoString) :
    replaceFrom old new n s = replaceFrom old new 0 (s.drop n) := by
  induction s generalizing n with
  | nil => cases n <;> simp [replaceFrom]
  | cons c rest ih =>
    cases n with
    | zero => simp
    | succ n => simp [replaceFrom, ih n]

theorem replaceFrom_match (old new t : GoString) (h : old ≠ []) :
    replaceFrom old new 0 (old ++ t) = new ++ replaceFrom old new 0 t := by
  cases old with
  | nil => exact absurd rfl h
  | cons c rest =>
    have hp : (c :: rest).isPrefixOf (c :: (rest ++ t)) = true := by
      rw [ List.isPrefixOf_iff_prefix]
      exact List.prefix_append (c :: rest) t
    rw [List.cons_append, replaceFrom, if_pos hp, replaceFrom_skip]
    simp

theorem replaceFrom_nomatch (old new : GoString) (c : Nat) (rest : GoString)
    (h : ¬ old <+: c :: rest) :
    replaceFrom old new 0 (c :: rest) = c :: replaceFrom old new 0 rest := by
  have hp : ¬ (old.isPrefixOf (c :: rest) = true) := by
    rw [ List.isPrefixOf_iff_prefix]
    exact h
  rw [replaceFrom, if_neg hp]

theorem replaceFrom_block (old new a b : GoString)
    (h : ∀ u v, a = v ++ u → u ≠ [] → ¬ old <+: u ++ b) :
    replaceFrom old new 0 (a ++ b) = a ++ replaceFrom old new 0 b := by
  induction a with
  | nil => rfl
  | cons c rest ih =>
    rw [List.cons_append, replaceFrom_nomatch, ih]
    · rfl
    · intro u v hv hu
      exact h u (c :: v) (by rw [hv]; rfl) hu
    · exact h (c :: rest) [] rfl (by simp)

/-! ## Text outside tokens -/

theorem splitOnSpace_ne_nil (s : GoString) : splitOnSpace s ≠ [] := by
  cases s with
  | nil => simp [splitOnSpace]
  | cons c rest =>
    unfold splitOnSpace
    split
    · simp
    · cases splitOnSpace rest <;> simp [consHead]

theorem textsFrom_ne_nil (b : Bool) (s : GoString) : textsFrom b s ≠ [] := by
  induction s generalizing b with
  | nil => simp [textsFrom]
  | cons c rest ih =>
    unfold textsFrom
    split
    · simp
    · split
      · exact ih true
      · have := ih false
        cases h : textsFrom false rest with
        | nil => exact absurd h this
        | cons r rs => simp [consHead]

theorem textsFrom_true (s : GoString) : textsFrom true s = [] :: (textsFrom false s).tail := by
  induction s with
  | nil => simp [textsFrom]
  | cons c rest ih =>
    by_cases h32 : c = 32
    · simp [textsFrom, h32]
    · by_cases hs : isTokenStart c = true
      · simp [textsFrom, h32, hs, ih]
      · simp only [textsFrom, h32, if_false, Bool.true_or, if_true, Bool.false_or, hs]
        rw [ih]
        cases h : textsFrom false rest with
        | nil => exact absurd h (textsFrom_ne_nil _ _)
        | cons r rs => simp [consHead]

theorem textsFrom_false (s : GoString) : textsFrom false s = (splitOnSpace s).map textOf := by
  induction s with
  | nil => simp [textsFrom, splitOnSpace, textOf]
  | cons c rest ih =>
    by_cases h32 : c = 32
    · simp [textsFrom, splitOnSpace, h32, ih, textOf]
    · cases hsp : splitOnSpace rest with
      | nil => exact absurd hsp (splitOnSpace_ne_nil _)
      | cons r rs =>
        rw [hsp] at ih
        by_cases hs : isTokenStart c = true
        · simp [textsFrom, splitOnSpace, h32, hs, textsFrom_true, ih, hsp, consHead, textOf]
        · simp [textsFrom, splitOnSpace, h32, hs, ih, hsp, consHead, textOf]

theorem textsFrom_nospace (b : Bool) (w t : GoString) (h : 32 ∉ w) (hb : b = true ∨ w = []) :
    textsFrom b (w ++ t) = textsFrom b t := by
  induction w with
  | nil => rfl
  | cons c rest ih =>
    have hb1 : b = true := by
      rcases hb with h1 | h1
      · exact h1
      · simp at h1
    subst hb1
    have h32 : c ≠ 32 := fun hc => h (by simp [hc])
    have hr : 32 ∉ rest := fun hc => h (List.mem_cons_of_mem _ hc)
    simp only [List.cons_append, textsFrom, h32, if_false, Bool.true_or, if_true]
    exact ih hr (Or.inl rfl)

theorem textsFrom_word (b : Bool) (w t : GoString) (h : Wordlike w) :
    textsFrom b (w ++ t) = textsFrom true t := by
  obtain ⟨⟨c, rest, rfl, hs⟩, h32⟩ := h
  have hc : c ≠ 32 := fun hc => h32 (by simp [hc])
  have hr : 32 ∉ rest := fun hc => h32 (List.mem_cons_of_mem _ hc)
  simp only [List.cons_append, textsFrom, hc, if_false, hs, Bool.or_true, if_true]
  exact textsFrom_nospace true rest t hr (Or.inl rfl)

theorem textsFrom_replaceFrom (old new : GoString) (ho : Wordlike old) (hn : Wordlike new)
    (n : Nat) (s : GoString) (hlen : s.length ≤ n) (b : Bool) :
    textsFrom b (replaceFrom old new 0 s) = textsFrom b s := by
  have hne : old ≠ [] := by
    obtain ⟨⟨c, rest, rfl, _⟩, _⟩ := ho
    simp
  induction n generalizing s b with
  | zero =>
    have : s = [] := List.length_eq_zero.1 (by omega)
    subst this
    rfl
  | succ n ih =>
    cases s with
    | nil => rfl
    | cons c rest =>
      by_cases hp : old <+: c :: rest
      · obtain ⟨t, ht⟩ := hp
        rw [← ht, replaceFrom_match _ _ _ hne, textsFrom_word _ _ _ hn, textsFrom_word _ _ _ ho]
        apply ih
        have h1 : (old ++ t).length = (c :: rest).length := by rw [ht]
        have h2 : 0 < old.length := List.length_pos.2 hne
        simp only [List.length_append, List.length_cons] at h1 hlen
        omega
      · rw [replaceFrom_nomatch _ _ _ _ hp]
        have hl : rest.length ≤ n := by simpa using hlen
        simp only [textsFrom, ih rest hl]

theorem textsFrom_ReplaceAll (s old new : GoString) (ho : Wordlike old) (hn : Wordlike new)
    (b : Bool) : textsFrom b (ReplaceAll s old new) = textsFrom b s := by
  unfold ReplaceAll
  split
  · rfl
  · exact textsFrom_replaceFrom old new ho hn s.length s (le_refl _) b

theorem sprintfD_no_space (i : Nat) : 32 ∉ sprintfD i := by
  intro h
  have := sprintfD_digits i 32 h
  omega

theorem replacedKey_wordlike (i : Nat) : Wordlike (replacedKey i) := by
  refine ⟨⟨35, [75, 69, 89] ++ sprintfD i, by simp [replacedKey, keyLit], rfl⟩, ?_⟩
  intro h
  rcases List.mem_append.1 h with h | h
  · simp [keyLit] at h
  · exact sprintfD_no_space i h

theorem replacedValue_wordlike (i : Nat) : Wordlike (replacedValue i) := by
  refine ⟨⟨58, [86, 65, 76, 85, 69] ++ sprintfD i, by simp [replacedValue, valueLit], rfl⟩, ?_⟩
  intro h
  rcases List.mem_append.1 h with h | h
  · simp [valueLit] at h
  · exact sprintfD_no_space i h

theorem textsFrom_nameLoop (ks : List GoString) (i : Nat) (st : GoString × GoMap GoString)
    (h : ∀ k ∈ ks, Wordlike k) (b : Bool) :
    textsFrom b (nameLoop ks i st).1 = textsFrom b st.1 := by
  induction ks generalizing i st with
  | nil => rfl
  | cons k ks ih =>
    rw [nameLoop, ih _ _ (fun k hk => h k (List.mem_cons_of_mem _ hk))]
    exact textsFrom_ReplaceAll _ _ _ (h k (List.mem_cons_self _ _)) (replacedKey_wordlike i) b

theorem textsFrom_valueLoop {V : Type} (values : GoMap (Option V)) (ks : List GoString) (i : Nat)
    (st : GoString × GoMap (Option V)) (h : ∀ k ∈ ks, Wordlike k) (b : Bool) :
    textsFrom b (valueLoop values ks i st).1 = textsFrom b st.1 := by
  induction ks generalizing i st with
  | nil => rfl
  | cons k ks ih =>
    rw [valueLoop, ih _ _ (fun k hk => h k (List.mem_cons_of_mem _ hk))]
    exact textsFrom_ReplaceAll _ _ _ (h k (List.mem_cons_self _ _)) (replacedValue_wordlike i) b

/-! ## Segments -/

theorem joinSpace_cons (r : GoString) (rs : List GoString) :
    joinSpace (r :: rs) = r ++ (if rs = [] then [] else 32 :: joinSpace rs) := by
  cases rs with
  | nil => simp [joinSpace]
  | cons r2 rs => simp [joinSpace]

theorem joinSpace_consHead (c : Nat) (segs : List GoString) (h : segs ≠ []) :
    joinSpace (consHead c segs) = c :: joinSpace segs := by
  cases segs with
  | nil => exact absurd rfl h
  | cons r rs => simp [consHead, joinSpace_cons]

theorem joinSpace_splitOnSpace (s : GoString) : joinSpace (splitOnSpace s) = s := by
  induction s with
  | nil => rfl
  | cons c rest ih =>
    unfold splitOnSpace
    split
    · rename_i h
      rw [joinSpace_cons, if_neg (splitOnSpace_ne_nil rest), ih, h]
      rfl
    · rw [joinSpace_consHead _ _ (splitOnSpace_ne_nil rest), ih]

theorem splitOnSpace_no_space (s : GoString) : ∀ seg ∈ splitOnSpace s, 32 ∉ seg := by
  induction s with
  | nil => simp [splitOnSpace]
  | cons c rest ih =>
    unfold splitOnSpace
    split
    · intro seg hseg
      rcases List.mem_cons.1 hseg with h | h
      · simp [h]
      · exact ih seg h
    · rename_i hc
      cases hsp : splitOnSpace rest with
      | nil => exact absurd hsp (splitOnSpace_ne_nil _)
      | cons r rs =>
        rw [hsp] at ih
        intro seg hseg
        simp only [consHead, List.mem_cons] at hseg
        rcases hseg with h | h
        · subst h
          intro h32
          rcases List.mem_cons.1 h32 with h1 | h1
          · exact hc h1.symm
          · exact ih r (List.mem_cons_self _ _) h1
        · exact ih seg (List.mem_cons_of_mem _ h)

theorem textOf_append_tokenOf (seg : GoString) : textOf seg ++ tokenOf seg = seg :=
  List.takeWhile_append_dropWhile _ seg

theorem substSegment_id (seg : GoString) : substSegment (fun t => t) seg = seg := by
  unfold substSegment
  split
  · rename_i h
    have := textOf_append_tokenOf seg
    rw [h] at this
    simpa using this
  · exact textOf_append_tokenOf seg

theorem substituteTokens_id (s : GoString) : substituteTokens (fun t => t) s = s := by
  unfold substituteTokens
  have : (fun seg => substSegment (fun t => t) seg) = id := funext substSegment_id
  rw [show substSegment (fun t => t) = id from this, List.map_id, joinSpace_splitOnSpace]

theorem textOf_no_start (seg : GoString) : ∀ c ∈ textOf seg, isTokenStart c = false := by
  intro c hc
  have := List.mem_takeWhile_imp hc
  simpa using this

theorem tokenOf_wordlike (seg : GoString) (h32 : 32 ∉ seg) (h : tokenOf seg ≠ []) :
    Wordlike (tokenOf seg) := by
  induction seg with
  | nil => simp [tokenOf] at h
  | cons c rest ih =>
    by_cases hs : isTokenStart c = true
    · have : tokenOf (c :: rest) = c :: rest := by simp [tokenOf, hs]
      rw [this]
      exact ⟨⟨c, rest, rfl, hs⟩, h32⟩
    · have : tokenOf (c :: rest) = tokenOf rest := by simp [tokenOf, hs]
      rw [this] at h ⊢
      exact ih (fun h1 => h32 (List.mem_cons_of_mem _ h1)) h

theorem tokenOf_subset (seg : GoString) : ∀ c ∈ tokenOf seg, c ∈ seg := by
  intro c hc
  exact (List.dropWhile_sublist _).subset hc

/-! ## Where a word can occur -/

theorem text_block (k a b : GoString) (hk : Wordlike k)
    (ha : ∀ c ∈ a, isTokenStart c = false) :
    ∀ u v, a = v ++ u → u ≠ [] → ¬ k <+: u ++ b := by
  intro u v hv hu hp
  obtain ⟨⟨c, rest, rfl, hs⟩, _⟩ := hk
  cases u with
  | nil => exact hu rfl
  | cons d u =>
    obtain ⟨t, ht⟩ := hp
    simp only [List.cons_append, List.cons.injEq] at ht
    have hd : d ∈ a := by rw [hv]; simp
    have := ha d hd
    rw [← ht.1, hs] at this
    exact Bool.noConfusion this

theorem word_block (k w b : GoString) (hk : 32 ∉ k) (hw : ¬ k <:+: w)
    (hb : b = [] ∨ ∃ b2, b = 32 :: b2) :
    ∀ u v, w = v ++ u → u ≠ [] → ¬ k <+: u ++ b := by
  intro u v hv _ hp
  by_cases hlen : k.length ≤ u.length
  · have h1 : k <+: u := List.prefix_of_prefix_length_le hp (List.prefix_append u b) hlen
    apply hw
    obtain ⟨t, ht⟩ := h1
    exact ⟨v, t, by rw [hv, ← ht]; simp⟩
  · have h1 : u <+: k :=
      List.prefix_of_prefix_length_le (List.prefix_append u b) hp (by omega)
    obtain ⟨r, hr⟩ := h1
    rw [← hr] at hp
    have h2 : r <+: b := (List.prefix_append_right_inj u).1 hp
    have hrne : r ≠ [] := by
      intro h0
      rw [h0, List.append_nil] at hr
      rw [hr] at hlen
      exact hlen (le_refl _)
    rcases hb with hb | ⟨b2, hb⟩
    · rw [hb] at h2
      exact hrne (List.prefix_nil.1 h2)
    · cases r with
      | nil => exact hrne rfl
      | cons x r =>
        rw [hb] at h2
        obtain ⟨t, ht⟩ := h2
        simp only [List.cons_append, List.cons.injEq] at ht
        apply hk
        rw [← hr, ht.1]
        simp

theorem not_occurs_block (k a b : GoString)
    (h : ∀ u v, a = v ++ u → u ≠ [] → ¬ k <+: u ++ b) (hb : ¬ k <:+: b) :
    ¬ k <:+: a ++ b := by
  rintro ⟨p, q, hpq⟩
  have h1 : p ++ (k ++ q) = a ++ b := by simpa using hpq
  rcases List.append_eq_append_iff.1 h1 with ⟨a2, ha, hb2⟩ | ⟨c2, hc, hd⟩
  · by_cases h0 : a2 = []
    · subst h0
      apply hb
      refine ⟨[], q, ?_⟩
      simpa using hb2
    · exact h a2 p ha h0 ⟨q, by rw [hb2]⟩
  · apply hb
    exact ⟨c2, q, by rw [hd]; simp⟩

/-! ## `ReplaceAll` on a condition given by its segments -/

theorem substSegment_congr (f g : GoString → GoString) (seg : GoString)
    (h : tokenOf seg ≠ [] → f (tokenOf seg) = g (tokenOf seg)) :
    substSegment f seg = substSegment g seg := by
  unfold substSegment
  split
  · rfl
  · rename_i hne
    rw [h hne]

theorem map_substSegment_congr (f g : GoString → GoString) (segs : List GoString)
    (h : ∀ seg ∈ segs, tokenOf seg ≠ [] → f (tokenOf seg) = g (tokenOf seg)) :
    segs.map (substSegment f) = segs.map (substSegment g) :=
  List.map_congr_left (fun seg hseg => substSegment_congr f g seg (h seg hseg))

theorem wordlike_ne_nil {k : GoString} (hk : Wordlike k) : k ≠ [] := by
  obtain ⟨⟨c, rest, rfl, _⟩, _⟩ := hk
  simp

theorem wordlike_not_prefix_space {k : GoString} (hk : Wordlike k) (s : GoString) :
    ¬ k <+: 32 :: s := by
  obtain ⟨⟨c, rest, rfl, _⟩, h32⟩ := hk
  rintro ⟨t, ht⟩
  simp only [List.cons_append, List.cons.injEq] at ht
  exact h32 (by simp [ht.1])

theorem wordlike_not_occurs_nil {k : GoString} (hk : Wordlike k) : ¬ k <:+: [] := by
  intro h
  exact wordlike_ne_nil hk (List.infix_nil.1 h)

theorem replaceFrom_segments (k new : GoString) (f : GoString → GoString) (hk : Wordlike k)
    (segs : List GoString)
    (hf : ∀ seg ∈ segs, tokenOf seg ≠ [] →
      32 ∉ f (tokenOf seg) ∧ (k <:+: f (tokenOf seg) → f (tokenOf seg) = k)) :
    replaceFrom k new 0 (joinSpace (segs.map (substSegment f))) =
      joinSpace (segs.map (substSegment (fun t => if f t = k then new else f t))) := by
  induction segs with
  | nil => rfl
  | cons seg rest ih =>
    have ih2 := ih (fun s hs => hf s (List.mem_cons_of_mem _ hs))
    simp only [List.map_cons, joinSpace_cons]
    -- the part after the segment
    have htail : replaceFrom k new 0
        (if rest.map (substSegment f) = [] then []
          else 32 :: joinSpace (rest.map (substSegment f))) =
        (if rest.map (substSegment (fun t => if f t = k then new else f t)) = [] then []
          else 32 :: joinSpace (rest.map (substSegment (fun t => if f t = k then new else f t)))) := by
      cases rest with
      | nil => rfl
      | cons r rs =>
        simp only [List.map_cons, reduceCtorEq, if_false]
        rw [replaceFrom_nomatch _ _ _ _ (wordlike_not_prefix_space hk _)]
        simp only [List.map_cons] at ih2
        rw [ih2]
    have hb : (if rest.map (substSegment f) = [] then []
          else 32 :: joinSpace (rest.map (substSegment f))) = [] ∨
        ∃ b2, (if rest.map (substSegment f) = [] then []
          else 32 :: joinSpace (rest.map (substSegment f))) = 32 :: b2 := by
      split
      · exact Or.inl rfl
      · exact Or.inr ⟨_, rfl⟩
    generalize (if rest.map (substSegment f) = [] then []
          else 32 :: joinSpace (rest.map (substSegment f))) = T at htail hb
    generalize (if rest.map (substSegment (fun t => if f t = k then new else f t)) = [] then []
          else 32 :: joinSpace (rest.map (substSegment (fun t => if f t = k then new else f t))))
      = T2 at htail
    unfold substSegment
    rw [List.append_assoc, replaceFrom_block _ _ _ _ (text_block k _ _ hk (textOf_no_start seg))]
    rw [List.append_assoc]
    congr 1
    by_cases htok : tokenOf seg = []
    · simp only [htok, if_true, List.nil_append]
      exact htail
    · simp only [htok, if_false]
      have hseg := hf seg (List.mem_cons_self _ _) htok
      by_cases heq : f (tokenOf seg) = k
      · rw [if_pos heq, heq, replaceFrom_match _ _ _ (wordlike_ne_nil hk), htail]
      · rw [if_neg heq]
        have hno : ¬ k <:+: f (tokenOf seg) := fun h => heq (hseg.2 h)
        rw [replaceFrom_block _ _ _ _ (word_block k _ T hk.2 hno hb), htail]

theorem not_occurs_segments (k : GoString) (f : GoString → GoString) (hk : Wordlike k)
    (segs : List GoString)
    (hf : ∀ seg ∈ segs, tokenOf seg ≠ [] → 32 ∉ f (tokenOf seg) ∧ ¬ k <:+: f (tokenOf seg)) :
    ¬ k <:+: joinSpace (segs.map (substSegment f)) := by
  induction segs with
  | nil => exact wordlike_not_occurs_nil hk
  | cons seg rest ih =>
    have ih2 := ih (fun s hs => hf s (List.mem_cons_of_mem _ hs))
    simp only [List.map_cons, joinSpace_cons]
    have htail : ¬ k <:+: (if rest.map (substSegment f) = [] then []
          else 32 :: joinSpace (rest.map (substSegment f))) := by
      split
      · exact wordlike_not_occurs_nil hk
      · have := not_occurs_block k [32] (joinSpace (rest.map (substSegment f)))
          (text_block k [32] _ hk (by simp [isTokenStart])) ih2
        simpa using this
    have hb : (if rest.map (substSegment f) = [] then []
          else 32 :: joinSpace (rest.map (substSegment f))) = [] ∨
        ∃ b2, (if rest.map (substSegment f) = [] then []
          else 32 :: joinSpace (rest.map (substSegment f))) = 32 :: b2 := by
      split
      · exact Or.inl rfl
      · exact Or.inr ⟨_, rfl⟩
    generalize (if rest.map (substSegment f) = [] then []
          else 32 :: joinSpace (rest.map (substSegment f))) = T at htail hb
    unfold substSegment
    rw [List.append_assoc]
    apply not_occurs_block k _ _ (text_block k _ _ hk (textOf_no_start seg))
    by_cases htok : tokenOf seg = []
    · simp only [htok, if_true, List.nil_append]
      exact htail
    · simp only [htok, if_false]
      have hseg := hf seg (List.mem_cons_self _ _) htok
      exact not_occurs_block k _ _ (word_block k _ T hk.2 hseg.2 hb) htail

/-! ## The substitution loops on a condition given by its segments -/

theorem nameLoop_fst (ks : List GoString) (i : Nat) (st : GoString × GoMap GoString) :
    (nameLoop ks i st).1 = substLoop replacedKey ks i st.1 := by
  induction ks generalizing i st with
  | nil => rfl
  | cons k ks ih => rw [nameLoop, ih, substLoop]

theorem valueLoop_fst {V : Type} (values : GoMap (Option V)) (ks : List GoString) (i : Nat)
    (st : GoString × GoMap (Option V)) :
    (valueLoop values ks i st).1 = substLoop replacedValue ks i st.1 := by
  induction ks generalizing i st with
  | nil => rfl
  | cons k ks ih => rw [valueLoop, ih, substLoop]

theorem firstIndex_lt {t : GoString} {l : List GoString} (h : t ∈ l) :
    firstIndex t l < l.length := by
  induction l with
  | nil => simp at h
  | cons k ks ih =>
    unfold firstIndex
    split
    · simp
    · rename_i hne
      rcases List.mem_cons.1 h with h1 | h1
      · exact absurd h1.symm hne
      · simpa using ih h1

theorem firstIndex_append_of_mem {t : GoString} {l : List GoString} (l2 : List GoString)
    (h : t ∈ l) : firstIndex t (l ++ l2) = firstIndex t l := by
  induction l with
  | nil => simp at h
  | cons k ks ih =>
    rw [List.cons_append, firstIndex, firstIndex]
    split
    · rfl
    · rename_i hne
      rcases List.mem_cons.1 h with h1 | h1
      · exact absurd h1.symm hne
      · rw [ih h1]

theorem firstIndex_append_of_not_mem {t : GoString} {l : List GoString} (l2 : List GoString)
    (h : t ∉ l) : firstIndex t (l ++ l2) = l.length + firstIndex t l2 := by
  induction l with
  | nil => simp
  | cons k ks ih =>
    have hne : ¬ k = t := fun h1 => h (by simp [h1])
    have hks : t ∉ ks := fun h1 => h (List.mem_cons_of_mem _ h1)
    rw [List.cons_append, firstIndex, if_neg hne, ih hks, List.length_cons]
    omega

theorem firstIndex_getElem? {t : GoString} {l : List GoString} (h : t ∈ l) :
    l[firstIndex t l]? = some t := by
  induction l with
  | nil => simp at h
  | cons k ks ih =>
    unfold firstIndex
    split
    · rename_i heq
      simp [heq]
    · rename_i hne
      rcases List.mem_cons.1 h with h1 | h1
      · exact absurd h1.symm hne
      · simpa using ih h1

theorem renameDone_step (gen : Nat → GoString) (f0 : GoString → GoString)
    (done : List GoString) (k t : GoString)
    (c1 : t ∈ done → ¬ k <:+: gen (firstIndex t done))
    (c2 : k <:+: f0 t → t = k) (c3 : f0 k = k) :
    (if renameDone gen f0 done t = k then gen done.length else renameDone gen f0 done t)
      = renameDone gen f0 (done ++ [k]) t := by
  unfold renameDone
  by_cases hd : t ∈ done
  · have hne : gen (firstIndex t done) ≠ k := by
      intro h
      exact c1 hd (by rw [h])
    have hd2 : t ∈ done ++ [k] := List.mem_append_left _ hd
    rw [if_pos hd, if_neg hne, if_pos hd2, firstIndex_append_of_mem _ hd]
  · rw [if_neg hd]
    by_cases hk : f0 t = k
    · have htk : t = k := c2 (by rw [hk])
      subst htk
      have hd2 : t ∈ done ++ [t] := by simp
      rw [if_pos hk, if_pos hd2, firstIndex_append_of_not_mem _ hd]
      simp [firstIndex]
    · have htk : t ≠ k := by
        intro h
        subst h
        exact hk c3
      have hd2 : t ∉ done ++ [k] := by simp [hd, htk]
      rw [if_neg hk, if_neg hd2]

theorem substLoop_segments (gen : Nat → GoString) (f0 : GoString → GoString)
    (segs : List GoString) (L : List GoString)
    (hgen : ∀ j, Wordlike (gen j))
    (h1 : ∀ seg ∈ segs, tokenOf seg ≠ [] → 32 ∉ f0 (tokenOf seg))
    (h3 : ∀ k ∈ L, Wordlike k)
    (h4 : ∀ k ∈ L, ∀ seg ∈ segs, tokenOf seg ≠ [] → k <:+: f0 (tokenOf seg) → tokenOf seg = k)
    (h5 : ∀ k ∈ L, ∀ j, j < L.length → ¬ k <:+: gen j)
    (h6 : ∀ k ∈ L, f0 k = k) :
    ∀ todo done, done ++ todo = L →
      substLoop gen todo done.length
          (joinSpace (segs.map (substSegment (renameDone gen f0 done))))
        = joinSpace (segs.map (substSegment (renameDone gen f0 L))) := by
  intro todo
  induction todo with
  | nil =>
    intro done hL
    rw [List.append_nil] at hL
    subst hL
    rfl
  | cons k todo ih =>
    intro done hL
    have hkL : k ∈ L := by rw [← hL]; simp
    have hlen : done.length < L.length := by rw [← hL]; simp
    have hidx : ∀ t ∈ done, ¬ k <:+: gen (firstIndex t done) := by
      intro t ht
      have : firstIndex t done < done.length := firstIndex_lt ht
      exact h5 k hkL _ (by omega)
    have hkw := h3 k hkL
    rw [substLoop, ReplaceAll, if_neg (wordlike_ne_nil hkw)]
    rw [replaceFrom_segments k (gen done.length) (renameDone gen f0 done) hkw segs]
    · rw [map_substSegment_congr _ (renameDone gen f0 (done ++ [k]))]
      · have := ih (done ++ [k]) (by rw [← hL]; simp)
        simpa using this
      · intro seg hseg htok
        exact renameDone_step gen f0 done k (tokenOf seg) (hidx _)
          (h4 k hkL seg hseg htok) (h6 k hkL)
    · intro seg hseg htok
      unfold renameDone
      split
      · rename_i hd
        exact ⟨(hgen _).2, fun h => absurd h (hidx _ hd)⟩
      · refine ⟨h1 seg hseg htok, fun h => ?_⟩
        have := h4 k hkL seg hseg htok h
        rw [this]
        exact h6 k hkL

/-! ## The tokenizer on a condition given by its segments -/

theorem scanLoop_nil (fuel : Nat) (st : ScanState) : scanLoop fuel [] st = st := by
  cases fuel <;> rfl

theorem scanLoop_fuel (fuel : Nat) :
    ∀ (s : GoString) (st : ScanState), s.length ≤ fuel →
      scanLoop fuel s st = scanLoop s.length s st := by
  induction fuel using Nat.strong_induction_on with
  | _ fuel ih =>
    intro s st hlen
    cases s with
    | nil => rw [scanLoop_nil, scanLoop_nil]
    | cons c rest =>
      cases fuel with
      | zero => simp at hlen
      | succ fuel =>
        have hrest : rest.length ≤ fuel := by simpa using hlen
        simp only [List.length_cons]
        unfold scanLoop
        split
        · rw [ih fuel (by omega) rest _ hrest]
        · rename_i hc
          have hdrop : ((c :: rest).dropWhile (fun c => c != 32)).length ≤ rest.length := by
            have h32 : c ≠ 32 := by omega
            have hd : (c :: rest).dropWhile (fun c => c != 32)
                = rest.dropWhile (fun c => c != 32) := by
              simp [List.dropWhile_cons, h32]
            rw [hd]
            exact (List.dropWhile_sublist _).length_le
          simp only [scanToken_snd]
          split
          · rw [ih fuel (by omega) _ _ (by omega), ih rest.length (by omega) _ _ hdrop]
          · rw [ih fuel (by omega) _ _ (by omega), ih rest.length (by omega) _ _ hdrop]

theorem scanLoop_text (p X : GoString) (hp : ∀ c ∈ p, isTokenStart c = false) :
    ∀ (fuel : Nat) (st : ScanState), (p ++ X).length ≤ fuel →
      ∃ P, scanLoop fuel (p ++ X) st
        = scanLoop (fuel - p.length) X { st with parsedCondition := P } := by
  induction p with
  | nil => intro fuel st _; exact ⟨st.parsedCondition, rfl⟩
  | cons c p ih =>
    intro fuel st hlen
    cases fuel with
    | zero => simp at hlen
    | succ fuel =>
      have hc : isTokenStart c = false := hp c (List.mem_cons_self _ _)
      have hc2 : c ≠ 58 ∧ c ≠ 35 := by
        simp only [isTokenStart, Bool.or_eq_false_iff, decide_eq_false_iff_not] at hc
        exact ⟨hc.2, hc.1⟩
      have hlen2 : (p ++ X).length ≤ fuel := by simpa using hlen
      obtain ⟨P, hP⟩ := ih (fun d hd => hp d (List.mem_cons_of_mem _ hd)) fuel
        { st with parsedCondition := st.parsedCondition ++ byteToString c } hlen2
      refine ⟨P, ?_⟩
      rw [List.cons_append, scanLoop, if_pos hc2, hP]
      simp

theorem scanToken_word (w X : GoString) (h32 : 32 ∉ w) (hasc : IsAscii w)
    (hX : X = [] ∨ ∃ X2, X = 32 :: X2) (acc : GoString) :
    scanToken (w ++ X) acc = (acc ++ w, X) := by
  induction w generalizing acc with
  | nil =>
    rcases hX with h | ⟨X2, h⟩
    · simp [h, scanToken]
    · simp [h, scanToken]
  | cons c w ih =>
    have hc : c ≠ 32 := fun h => h32 (by simp [h])
    have hb : byteToString c = [c] := by
      have : c < 128 := hasc c (List.mem_cons_self _ _)
      simp [byteToString, this]
    rw [List.cons_append, scanToken, if_neg hc, hb,
      ih (fun h => h32 (List.mem_cons_of_mem _ h))
        (fun d hd => hasc d (List.mem_cons_of_mem _ hd))]
    simp

theorem scanLoop_word (w X : GoString) (hw : Wordlike w) (hasc : IsAscii w)
    (hX : X = [] ∨ ∃ X2, X = 32 :: X2) (fuel : Nat) (st : ScanState)
    (hlen : (w ++ X).length ≤ fuel) :
    scanLoop fuel (w ++ X) st = scanLoop (fuel - 1) X
      (if isNameToken w = true then { st with keyNameList := st.keyNameList ++ [w] }
        else { st with valueNameList := st.valueNameList ++ [w] }) := by
  have htok := scanToken_word w X hw.2 hasc hX []
  obtain ⟨⟨c, rest, rfl, hs⟩, _⟩ := hw
  cases fuel with
  | zero => simp at hlen
  | succ fuel =>
    have hc : ¬ (c ≠ 58 ∧ c ≠ 35) := by
      simp only [isTokenStart, Bool.or_eq_true, decide_eq_true_eq] at hs
      omega
    rw [List.cons_append] at htok ⊢
    rw [scanLoop, if_neg hc]
    simp only [htok, List.nil_append, Nat.add_sub_cancel]
    by_cases h35 : c = 35
    · simp [h35, isNameToken]
    · simp [h35, isNameToken]

theorem scanLoop_segments (f : GoString → GoString) (segs : List GoString)
    (hf : ∀ seg ∈ segs, tokenOf seg ≠ [] →
      Wordlike (f (tokenOf seg)) ∧ IsAscii (f (tokenOf seg))) :
    ∀ (fuel : Nat) (st : ScanState),
      (joinSpace (segs.map (substSegment f))).length ≤ fuel →
      (scanLoop fuel (joinSpace (segs.map (substSegment f))) st).keyNameList
        = st.keyNameList ++ ((segmentTokens segs).map f).filter isNameToken ∧
      (scanLoop fuel (joinSpace (segs.map (substSegment f))) st).valueNameList
        = st.valueNameList ++ ((segmentTokens segs).map f).filter (fun t => !isNameToken t) := by
  induction segs with
  | nil =>
    intro fuel st _
    simp [joinSpace, scanLoop_nil, segmentTokens]
  | cons seg rest ih =>
    have ih2 := ih (fun s hs => hf s (List.mem_cons_of_mem _ hs))
    intro fuel st hlen
    simp only [List.map_cons, joinSpace_cons] at hlen ⊢
    -- the part after the segment
    have htail : ∀ (fuel : Nat) (st : ScanState),
        (if rest.map (substSegment f) = [] then []
          else 32 :: joinSpace (rest.map (substSegment f))).length ≤ fuel →
        (scanLoop fuel (if rest.map (substSegment f) = [] then []
          else 32 :: joinSpace (rest.map (substSegment f))) st).keyNameList
          = st.keyNameList ++ ((segmentTokens rest).map f).filter isNameToken ∧
        (scanLoop fuel (if rest.map (substSegment f) = [] then []
          else 32 :: joinSpace (rest.map (substSegment f))) st).valueNameList
          = st.valueNameList ++
            ((segmentTokens rest).map f).filter (fun t => !isNameToken t) := by
      intro fuel st hlen
      split at hlen
      · rename_i h0
        have hr : rest = [] := by simpa using h0
        subst hr
        simp [scanLoop_nil, segmentTokens]
      · rename_i h0
        rw [if_neg h0]
        obtain ⟨P, hP⟩ := scanLoop_text [32] (joinSpace (rest.map (substSegment f)))
          (by simp [isTokenStart]) fuel st (by simpa using hlen)
        simp only [List.singleton_append] at hP
        rw [hP]
        have hl : (joinSpace (rest.map (substSegment f))).length ≤ fuel - [32].length := by
          simp only [List.length_cons, List.length_nil] at hlen ⊢
          omega
        exact ih2 _ _ hl
    have hb : (if rest.map (substSegment f) = [] then []
          else 32 :: joinSpace (rest.map (substSegment f))) = [] ∨
        ∃ b2, (if rest.map (substSegment f) = [] then []
          else 32 :: joinSpace (rest.map (substSegment f))) = 32 :: b2 := by
      split
      · exact Or.inl rfl
      · exact Or.inr ⟨_, rfl⟩
    generalize (if rest.map (substSegment f) = [] then []
          else 32 :: joinSpace (rest.map (substSegment f))) = T at htail hb hlen
    unfold substSegment at hlen ⊢
    rw [List.append_assoc] at hlen ⊢
    obtain ⟨P, hP⟩ := scanLoop_text (textOf seg) _ (textOf_no_start seg) fuel st hlen
    rw [hP]
    have hlen2 : ((if tokenOf seg = [] then [] else f (tokenOf seg)) ++ T).length
        ≤ fuel - (textOf seg).length := by
      simp only [List.length_append] at hlen ⊢
      omega
    by_cases htok : tokenOf seg = []
    · simp only [htok, if_true, List.nil_append] at hlen2 ⊢
      have := htail _ { st with parsedCondition := P } hlen2
      simpa [segmentTokens, htok] using this
    · simp only [htok, if_false] at hlen2 ⊢
      have hseg := hf seg (List.mem_cons_self _ _) htok
      rw [scanLoop_word _ T hseg.1 hseg.2 hb _ _ hlen2]
      have hlen3 : T.length ≤ fuel - (textOf seg).length - 1 := by
        have : 0 < (f (tokenOf seg)).length := List.length_pos.2 (wordlike_ne_nil hseg.1)
        simp only [List.length_append] at hlen2
        omega
      have := htail _ (if isNameToken (f (tokenOf seg)) = true
        then { st with parsedCondition := P, keyNameList := st.keyNameList ++ [f (tokenOf seg)] }
        else { st with parsedCondition := P,
                       valueNameList := st.valueNameList ++ [f (tokenOf seg)] }) hlen3
      by_cases hname : isNameToken (f (tokenOf seg)) = true
      · simp only [hname, if_true] at this ⊢
        simpa [segmentTokens, htok, hname] using this
      · simp only [hname, if_false] at this ⊢
        simpa [segmentTokens, htok, hname] using this

/-! ## The rewritten condition of an ASCII condition without clashing tokens -/

theorem mem_joinSpace (segs : List GoString) (seg : GoString) (c : Nat) (hseg : seg ∈ segs)
    (hc : c ∈ seg) : c ∈ joinSpace segs := by
  induction segs with
  | nil => simp at hseg
  | cons r rs ih =>
    rw [joinSpace_cons]
    rcases List.mem_cons.1 hseg with h | h
    · subst h
      exact List.mem_append_left _ hc
    · have hne : rs ≠ [] := List.ne_nil_of_mem h
      rw [if_neg hne]
      exact List.mem_append_right _ (List.mem_cons_of_mem _ (ih h))

theorem segment_ascii (s : GoString) (hs : IsAscii s) :
    ∀ seg ∈ splitOnSpace s, IsAscii (tokenOf seg) := by
  intro seg hseg c hc
  apply hs
  have := mem_joinSpace _ seg c hseg (tokenOf_subset seg c hc)
  rwa [joinSpace_splitOnSpace] at this

theorem segment_wordlike (s : GoString) :
    ∀ seg ∈ splitOnSpace s, tokenOf seg ≠ [] → Wordlike (tokenOf seg) :=
  fun seg hseg h => tokenOf_wordlike seg (splitOnSpace_no_space s seg hseg) h

theorem mem_segmentTokens {segs : List GoString} {t : GoString} :
    t ∈ segmentTokens segs ↔ ∃ seg ∈ segs, tokenOf seg = t ∧ t ≠ [] := by
  simp only [segmentTokens, List.mem_filter, List.mem_map, decide_eq_true_eq]
  constructor
  · rintro ⟨⟨seg, hseg, rfl⟩, h⟩
    exact ⟨seg, hseg, rfl, h⟩
  · rintro ⟨seg, hseg, rfl, h⟩
    exact ⟨⟨seg, hseg, rfl⟩, h⟩

theorem tokenize_ascii (condition : GoString) (hascii : IsAscii condition) :
    (tokenize condition).keyNameList = (specTokens condition).filter isNameToken ∧
    (tokenize condition).valueNameList
      = (specTokens condition).filter (fun t => !isNameToken t) := by
  have h := scanLoop_segments (fun t => t) (splitOnSpace condition)
    (fun seg hseg htok => ⟨segment_wordlike condition seg hseg htok,
      segment_ascii condition hascii seg hseg⟩) condition.length ⟨[], [], []⟩
  have hid : joinSpace ((splitOnSpace condition).map (substSegment (fun t => t))) = condition :=
    substituteTokens_id condition
  rw [hid] at h
  have h2 := h (le_refl _)
  simpa [tokenize, specTokens, segmentTokens] using h2

theorem replacedKey_ascii (i : Nat) : IsAscii (replacedKey i) := by
  intro c hc
  rcases List.mem_append.1 hc with h | h
  · simp [keyLit] at h
    omega
  · have := sprintfD_digits i c h
    omega

theorem replacedValue_ascii (i : Nat) : IsAscii (replacedValue i) := by
  intro c hc
  rcases List.mem_append.1 hc with h | h
  · simp [valueLit] at h
    omega
  · have := sprintfD_digits i c h
    omega

theorem isNameToken_replacedKey (i : Nat) : isNameToken (replacedKey i) = true := by
  simp [isNameToken, replacedKey, keyLit]

theorem isNameToken_replacedValue (i : Nat) : isNameToken (replacedValue i) = false := by
  simp [isNameToken, replacedValue, valueLit]

theorem isNameToken_generatedName (keys vals : List GoString) (t : GoString) :
    isNameToken (generatedName keys vals t) = isNameToken t := by
  unfold generatedName
  split
  · rename_i h
    rw [isNameToken_replacedKey]
    simp [isNameToken, h]
  · rename_i h
    rw [isNameToken_replacedValue]
    simp [isNameToken, h]

theorem generatedName_wordlike (keys vals : List GoString) (t : GoString) :
    Wordlike (generatedName keys vals t) ∧ IsAscii (generatedName keys vals t) := by
  unfold generatedName
  split
  · exact ⟨replacedKey_wordlike _, replacedKey_ascii _⟩
  · exact ⟨replacedValue_wordlike _, replacedValue_ascii _⟩

theorem firstIndex_of_nodup (l : List GoString) (h : l.Nodup) :
    l.map (fun t => firstIndex t l) = List.range l.length := by
  apply List.ext_getElem
  · simp
  · intro i h1 h2
    have hi : i < l.length := by simpa using h1
    simp only [List.getElem_map, List.getElem_range]
    have hmem : l[i] ∈ l := List.getElem_mem hi
    have hlt := firstIndex_lt hmem
    have hget := firstIndex_getElem? hmem
    rw [List.getElem?_eq_getElem hlt] at hget
    exact (h.getElem_inj_iff).1 (Option.some.inj hget)

theorem renameDone_nil (gen : Nat → GoString) (f0 : GoString → GoString) :
    renameDone gen f0 [] = f0 := by
  funext t
  simp [renameDone]

theorem token_mem_lists (condition : GoString) (hascii : IsAscii condition)
    (seg : GoString) (hseg : seg ∈ splitOnSpace condition) (htok : tokenOf seg ≠ []) :
    (isNameToken (tokenOf seg) = true ∧ tokenOf seg ∈ (tokenize condition).keyNameList) ∨
    (isNameToken (tokenOf seg) = false ∧ tokenOf seg ∈ (tokenize condition).valueNameList) := by
  have hspec : tokenOf seg ∈ specTokens condition :=
    mem_segmentTokens.2 ⟨seg, hseg, rfl, htok⟩
  obtain ⟨hk, hv⟩ := tokenize_ascii condition hascii
  by_cases hn : isNameToken (tokenOf seg) = true
  · left
    refine ⟨hn, ?_⟩
    rw [hk]
    exact List.mem_filter.2 ⟨hspec, hn⟩
  · right
    have hn2 : isNameToken (tokenOf seg) = false := by simpa using hn
    refine ⟨hn2, ?_⟩
    rw [hv]
    exact List.mem_filter.2 ⟨hspec, by simp [hn2]⟩

theorem name_not_value (condition : GoString) (k : GoString)
    (hk : k ∈ (tokenize condition).valueNameList) :
    k ∉ (tokenize condition).keyNameList := by
  intro h
  have h1 := ((tokenize_tokens condition).1 k h).2
  have h2 := ((tokenize_tokens condition).2 k hk).2
  rw [h1] at h2
  simp at h2

theorem isNameToken_of_key (condition : GoString) (k : GoString)
    (hk : k ∈ (tokenize condition).keyNameList) : isNameToken k = true := by
  have h1 := ((tokenize_tokens condition).1 k hk).2
  simp [isNameToken, h1]

theorem isNameToken_of_value (condition : GoString) (k : GoString)
    (hk : k ∈ (tokenize condition).valueNameList) : isNameToken k = false := by
  have h1 := ((tokenize_tokens condition).2 k hk).2
  simp [isNameToken, h1]

theorem rewrite_condition_eq {V : Type} (condition : GoString) (values : GoMap (Option V))
    (hascii : IsAscii condition)
    (ha : ∀ t ∈ (tokenize condition).keyNameList ++ (tokenize condition).valueNameList,
      ∀ u ∈ (tokenize condition).keyNameList ++ (tokenize condition).valueNameList,
        t <:+: u → t = u)
    (hb : ∀ t ∈ (tokenize condition).keyNameList ++ (tokenize condition).valueNameList,
      (∀ j, j < (tokenize condition).keyNameList.length → ¬ t <:+: replacedKey j) ∧
      (∀ j, j < (tokenize condition).valueNameList.length → ¬ t <:+: replacedValue j)) :
    (rewrite condition values).condition
      = substituteTokens
          (generatedName (tokenize condition).keyNameList (tokenize condition).valueNameList)
          condition := by
  have hmem := token_mem_lists condition hascii
  have hmem2 : ∀ seg ∈ splitOnSpace condition, tokenOf seg ≠ [] →
      tokenOf seg ∈ (tokenize condition).keyNameList ++ (tokenize condition).valueNameList := by
    intro seg hseg htok
    rcases hmem seg hseg htok with h | h
    · exact List.mem_append_left _ h.2
    · exact List.mem_append_right _ h.2
  have hkw := (tokenize_tokens condition).1
  have hvw := (tokenize_tokens condition).2
  -- the first loop
  have e1 := substLoop_segments replacedKey (fun t => t) (splitOnSpace condition)
    (tokenize condition).keyNameList replacedKey_wordlike
    (fun seg hseg htok => (segment_wordlike condition seg hseg htok).2)
    (fun k hk => (hkw k hk).1)
    (fun k hk seg hseg htok hin =>
      (ha k (List.mem_append_left _ hk) _ (hmem2 seg hseg htok) hin).symm)
    (fun k hk j hj => (hb k (List.mem_append_left _ hk)).1 j hj)
    (fun _ _ => rfl)
    (tokenize condition).keyNameList [] (by simp)
  rw [renameDone_nil] at e1
  have hid : joinSpace ((splitOnSpace condition).map (substSegment (fun t => t))) = condition :=
    substituteTokens_id condition
  rw [hid] at e1
  -- the second loop
  have e2 := substLoop_segments replacedValue
    (renameDone replacedKey (fun t => t) (tokenize condition).keyNameList)
    (splitOnSpace condition) (tokenize condition).valueNameList replacedValue_wordlike
    (by
      intro seg hseg htok
      unfold renameDone
      split
      · exact (replacedKey_wordlike _).2
      · exact (segment_wordlike condition seg hseg htok).2)
    (fun k hk => (hvw k hk).1)
    (by
      intro k hk seg hseg htok hin
      unfold renameDone at hin
      split at hin
      · rename_i hd
        exact absurd hin ((hb k (List.mem_append_right _ hk)).1 _ (firstIndex_lt hd))
      · exact (ha k (List.mem_append_right _ hk) _ (hmem2 seg hseg htok) hin).symm)
    (fun k hk j hj => (hb k (List.mem_append_right _ hk)).2 j hj)
    (by
      intro k hk
      unfold renameDone
      rw [if_neg (name_not_value condition k hk)])
    (tokenize condition).valueNameList [] (by simp)
  rw [renameDone_nil] at e2
  simp only [rewrite]
  rw [valueLoop_fst, nameLoop_fst]
  simp only [List.length_nil] at e1 e2
  rw [e1, e2]
  unfold substituteTokens
  congr 1
  apply map_substSegment_congr
  intro seg hseg htok
  unfold renameDone generatedName
  rcases hmem seg hseg htok with ⟨hn, hin⟩ | ⟨hn, hin⟩
  · have hh : (tokenOf seg).head? = some 35 := by simpa [isNameToken] using hn
    have hnv : tokenOf seg ∉ (tokenize condition).valueNameList :=
      fun h => name_not_value condition _ h hin
    rw [if_neg hnv, if_pos hin, if_pos hh]
  · have hh : ¬ (tokenOf seg).head? = some 35 := by simpa [isNameToken] using hn
    rw [if_pos hin, if_neg hh]

theorem trimPrefix_hash (k : GoString) (h : k.head? = some 35) : TrimPrefix k [35] = k.drop 1 := by
  cases k with
  | nil => simp at h
  | cons c t =>
    simp at h
    subst h
    simp [TrimPrefix]

theorem names_generatedName {V : Type} (condition : GoString) (values : GoMap (Option V))
    (k : GoString) (hk : k ∈ (tokenize condition).keyNameList) :
    (rewrite condition values).expressionAttributeNames
      (generatedName (tokenize condition).keyNameList (tokenize condition).valueNameList k)
      = some (k.drop 1) := by
  have hh := ((tokenize_tokens condition).1 k hk).2
  have h := nameLoop_get (tokenize condition).keyNameList 0 (condition, GoMap.empty)
    (firstIndex k (tokenize condition).keyNameList) k (firstIndex_getElem? hk)
  simp only [Nat.zero_add] at h
  simp only [rewrite, generatedName, if_pos hh]
  rw [h, trimPrefix_hash k hh]

theorem values_generatedName {V : Type} (condition : GoString) (values : GoMap (Option V))
    (k : GoString) (hk : k ∈ (tokenize condition).valueNameList) :
    (rewrite condition values).ExpressionAttributeValues
      (generatedName (tokenize condition).keyNameList (tokenize condition).valueNameList k)
      = some (values.index k none) := by
  have hh := ((tokenize_tokens condition).2 k hk).2
  have hne : ¬ k.head? = some 35 := by rw [hh]; simp
  have h := valueLoop_get values (tokenize condition).valueNameList 0
    ((nameLoop (tokenize condition).keyNameList 0 (condition, GoMap.empty)).1, GoMap.empty)
    (firstIndex k (tokenize condition).valueNameList) k (firstIndex_getElem? hk)
  simp only [Nat.zero_add] at h
  simp only [rewrite, generatedName, if_neg hne]
  rw [h]

theorem tokenize_substituteTokens_of (f : GoString → GoString) (condition : GoString)
    (hascii : IsAscii condition) (hf : ∀ t, Wordlike (f t) ∧ IsAscii (f t))
    (hn : ∀ t, isNameToken (f t) = isNameToken t) :
    (tokenize (substituteTokens f condition)).keyNameList
      = (tokenize condition).keyNameList.map f ∧
    (tokenize (substituteTokens f condition)).valueNameList
      = (tokenize condition).valueNameList.map f := by
  obtain ⟨hk, hv⟩ := tokenize_ascii condition hascii
  rw [hk, hv]
  have h := scanLoop_segments f (splitOnSpace condition) (fun seg _ _ => hf _)
    _ ⟨[], [], []⟩ (le_refl _)
  simp only [List.nil_append] at h
  unfold tokenize substituteTokens
  rw [h.1, h.2]
  constructor
  · rw [List.filter_map]
    congr 1
    apply List.filter_congr
    intro t _
    exact hn t
  · rw [List.filter_map]
    congr 1
    apply List.filter_congr
    intro t _
    simp [hn]

theorem tokenize_substituteTokens (condition : GoString) (hascii : IsAscii condition) :
    (tokenize (substituteTokens
        (generatedName (tokenize condition).keyNameList (tokenize condition).valueNameList)
        condition)).keyNameList
      = (tokenize condition).keyNameList.map
          (generatedName (tokenize condition).keyNameList (tokenize condition).valueNameList) ∧
    (tokenize (substituteTokens
        (generatedName (tokenize condition).keyNameList (tokenize condition).valueNameList)
        condition)).valueNameList
      = (tokenize condition).valueNameList.map
          (generatedName (tokenize condition).keyNameList (tokenize condition).valueNameList) :=
  tokenize_substituteTokens_of _ condition hascii (fun t => generatedName_wordlike _ _ t)
    (fun t => isNameToken_generatedName _ _ t)

theorem not_occurs_substituteTokens (condition : GoString) (hascii : IsAscii condition)
    (hb : ∀ t ∈ (tokenize condition).keyNameList ++ (tokenize condition).valueNameList,
      (∀ j, j < (tokenize condition).keyNameList.length → ¬ t <:+: replacedKey j) ∧
      (∀ j, j < (tokenize condition).valueNameList.length → ¬ t <:+: replacedValue j))
    (t : GoString)
    (ht : t ∈ (tokenize condition).keyNameList ++ (tokenize condition).valueNameList) :
    ¬ t <:+: substituteTokens
      (generatedName (tokenize condition).keyNameList (tokenize condition).valueNameList)
      condition := by
  have htw : Wordlike t := by
    rcases List.mem_append.1 ht with h | h
    · exact ((tokenize_tokens condition).1 t h).1
    · exact ((tokenize_tokens condition).2 t h).1
  apply not_occurs_segments t _ htw
  intro seg hseg htok
  refine ⟨(generatedName_wordlike _ _ _).1.2, ?_⟩
  unfold generatedName
  rcases token_mem_lists condition hascii seg hseg htok with ⟨hn, hin⟩ | ⟨hn, hin⟩
  · have hh : (tokenOf seg).head? = some 35 := by simpa [isNameToken] using hn
    rw [if_pos hh]
    exact (hb t ht).1 _ (firstIndex_lt hin)
  · have hh : ¬ (tokenOf seg).head? = some 35 := by simpa [isNameToken] using hn
    rw [if_neg hh]
    exact (hb t ht).2 _ (firstIndex_lt hin)

theorem map_generatedName_keys (condition : GoString)
    (h : (tokenize condition).keyNameList.Nodup) :
    (tokenize condition).keyNameList.map
        (generatedName (tokenize condition).keyNameList (tokenize condition).valueNameList)
      = (List.range (tokenize condition).keyNameList.length).map replacedKey := by
  rw [← firstIndex_of_nodup _ h, List.map_map]
  apply List.map_congr_left
  intro k hk
  have hh := ((tokenize_tokens condition).1 k hk).2
  simp [generatedName, hh]

theorem map_generatedName_values (condition : GoString)
    (h : (tokenize condition).valueNameList.Nodup) :
    (tokenize condition).valueNameList.map
        (generatedName (tokenize condition).keyNameList (tokenize condition).valueNameList)
      = (List.range (tokenize condition).valueNameList.length).map replacedValue := by
  rw [← firstIndex_of_nodup _ h, List.map_map]
  apply List.map_congr_left
  intro k hk
  have hh := ((tokenize_tokens condition).2 k hk).2
  simp [generatedName, hh]

/-! ## The override of the generated names -/

theorem mergeNames_not_mem (generated : GoMap GoString) (entries : List (GoString × GoString))
    (k : GoString) (h : ∀ v, (k, v) ∉ entries) : mergeNames generated entries k = generated k := by
  induction entries generalizing generated with
  | nil => rfl
  | cons e es ih =>
    have h1 : ∀ v, (k, v) ∉ es := fun v hv => h v (List.mem_cons_of_mem _ hv)
    have h2 : k ≠ e.1 := by
      intro heq
      exact h e.2 (by rw [heq]; exact List.mem_cons_self _ _)
    have := ih (generated.set e.1 e.2) h1
    simp only [mergeNames, List.foldl_cons] at this ⊢
    rw [this]
    simp [GoMap.set, h2]

theorem mergeNames_mem (generated : GoMap GoString) (entries : List (GoString × GoString))
    (hnodup : (entries.map Prod.fst).Nodup) (k v : GoString) (hv : (k, v) ∈ entries) :
    mergeNames generated entries k = some v := by
  induction entries generalizing generated with
  | nil => simp at hv
  | cons e es ih =>
    have hnd : (es.map Prod.fst).Nodup := (List.nodup_cons.1 hnodup).2
    have hfresh : e.1 ∉ es.map Prod.fst := (List.nodup_cons.1 hnodup).1
    rcases List.mem_cons.1 hv with h | h
    · subst h
      have h1 : ∀ w, (k, w) ∉ es := by
        intro w hw
        exact hfresh (List.mem_map.2 ⟨(k, w), hw, rfl⟩)
      have := mergeNames_not_mem (generated.set k v) es k h1
      simp only [mergeNames, List.foldl_cons] at this ⊢
      rw [this]
      simp [GoMap.set]
    · have := ih (generated.set e.1 e.2) hnd h
      simpa only [mergeNames, List.foldl_cons] using this

/-! ## The claims -/

/-- C2: rewriting "#name = :val AND #age > :minAge" with the value map
":val" -> "Alice", ":minAge" -> 21 yields the condition
"#KEY0 = :VALUE0 AND #KEY1 > :VALUE1", the name map "#KEY0" -> "name",
"#KEY1" -> "age" and the value map ":VALUE0" -> "Alice", ":VALUE1" -> 21; the
two maps are also given entry by entry, every other key being absent. -/
theorem rewrite_roundTrip :
    (rewrite roundTripCondition roundTripValues).condition
        = ascii "#KEY0 = :VALUE0 AND #KEY1 > :VALUE1" ∧
    (rewrite roundTripCondition roundTripValues).expressionAttributeNames
        = (GoMap.empty.set (ascii "#KEY0") (ascii "name")).set (ascii "#KEY1") (ascii "age") ∧
    (rewrite roundTripCondition roundTripValues).ExpressionAttributeValues
        = (GoMap.empty.set (ascii ":VALUE0") (some (GoValue.str (ascii "Alice")))).set
            (ascii ":VALUE1") (some (GoValue.int 21)) ∧
    (rewrite roundTripCondition roundTripValues).expressionAttributeNames (ascii "#KEY0")
        = some (ascii "name") ∧
    (rewrite roundTripCondition roundTripValues).expressionAttributeNames (ascii "#KEY1")
        = some (ascii "age") ∧
    (∀ key, key ≠ ascii "#KEY0" → key ≠ ascii "#KEY1" →
      (rewrite roundTripCondition roundTripValues).expressionAttributeNames key = none) ∧
    (rewrite roundTripCondition roundTripValues).ExpressionAttributeValues (ascii ":VALUE0")
        = some (some (GoValue.str (ascii "Alice"))) ∧
    (rewrite roundTripCondition roundTripValues).ExpressionAttributeValues (ascii ":VALUE1")
        = some (some (GoValue.int 21)) ∧
    (∀ key, key ≠ ascii ":VALUE0" → key ≠ ascii ":VALUE1" →
      (rewrite roundTripCondition roundTripValues).ExpressionAttributeValues key = none) := by
  have hn : (rewrite roundTripCondition roundTripValues).expressionAttributeNames
      = (GoMap.empty.set (ascii "#KEY0") (ascii "name")).set (ascii "#KEY1") (ascii "age") := by
    rfl
  have hv : (rewrite roundTripCondition roundTripValues).ExpressionAttributeValues
      = (GoMap.empty.set (ascii ":VALUE0") (some (GoValue.str (ascii "Alice")))).set
          (ascii ":VALUE1") (some (GoValue.int 21)) := by
    rfl
  refine ⟨by decide, hn, hv, by rfl, by rfl, ?_, by rfl, by rfl, ?_⟩
  · intro key h0 h1
    rw [hn]
    simp [GoMap.set, GoMap.empty, h0, h1]
  · intro key h0 h1
    rw [hv]
    simp [GoMap.set, GoMap.empty, h0, h1]

/-- C3, at its own input: for "#name = :val OR #name = :val2" the code replaces
":val" inside ":val2" as well, so the rewritten condition is
"#KEY0 = :VALUE0 OR #KEY0 = :VALUE02", whose last token ":VALUE02" is not a key
of the generated value map, while the value supplied for ":val2" is stored under
":VALUE1", a name the condition does not contain. -/
theorem rewrite_duplicate (a b : GoValue) :
    (rewrite duplicateCondition (duplicateValues a b)).condition
        = ascii "#KEY0 = :VALUE0 OR #KEY0 = :VALUE02" ∧
    (tokenize (rewrite duplicateCondition (duplicateValues a b)).condition).valueNameList
        = [ascii ":VALUE0", ascii ":VALUE02"] ∧
    (rewrite duplicateCondition (duplicateValues a b)).ExpressionAttributeValues
        (ascii ":VALUE02") = none ∧
    (rewrite duplicateCondition (duplicateValues a b)).ExpressionAttributeValues
        (ascii ":VALUE1") = some (some b) ∧
    (rewrite duplicateCondition (duplicateValues a b)).expressionAttributeNames
        (ascii "#KEY0") = some (ascii "name") := by
  have hc : (rewrite duplicateCondition (duplicateValues a b)).condition
      = ascii "#KEY0 = :VALUE0 OR #KEY0 = :VALUE02" := by rfl
  refine ⟨hc, ?_, by rfl, by rfl, by rfl⟩
  rw [hc]
  decide

/-- C4: the generated name map has exactly the keys #KEY0..#KEY(N-1), N the
number of discovered name tokens, and #KEYi is mapped to the i-th discovered
name token without its leading '#'; the index is written in decimal. -/
theorem generated_names {V : Type} (condition : GoString) (values : GoMap (Option V)) :
    (∀ i k, (tokenize condition).keyNameList[i]? = some k →
      k.head? = some 35 ∧
      (rewrite condition values).expressionAttributeNames (replacedKey i) = some (k.drop 1)) ∧
    (∀ key, (rewrite condition values).expressionAttributeNames key ≠ none ↔
      ∃ i, i < (tokenize condition).keyNameList.length ∧ key = replacedKey i) ∧
    (∀ i j, replacedKey i = replacedKey j → i = j) ∧
    (∀ i, replacedKey i = ascii "#KEY" ++ sprintfD i ∧ decodeD (sprintfD i) = i ∧
      ∀ d ∈ sprintfD i, 48 ≤ d ∧ d ≤ 57) := by
  refine ⟨?_, ?_, fun i j h => replacedKey_injective h, fun i => ⟨rfl, decodeD_sprintfD i,
    sprintfD_digits i⟩⟩
  · intro i k hk
    have hmem : k ∈ (tokenize condition).keyNameList := List.getElem?_mem hk
    have hh := ((tokenize_tokens condition).1 k hmem).2
    refine ⟨hh, ?_⟩
    have h := nameLoop_get (tokenize condition).keyNameList 0 (condition, GoMap.empty) i k hk
    simp only [Nat.zero_add] at h
    simp only [rewrite]
    rw [h]
    cases k with
    | nil => simp at hh
    | cons c t =>
      simp at hh
      subst hh
      simp [TrimPrefix]
  · intro key
    constructor
    · intro h
      by_contra hne
      apply h
      simp only [rewrite]
      rw [nameLoop_other]
      · rfl
      · intro j hj heq
        exact hne ⟨j, hj, by simpa using heq⟩
    · rintro ⟨i, hi, rfl⟩
      have hk : (tokenize condition).keyNameList[i]? = some ((tokenize condition).keyNameList[i]) :=
        List.getElem?_eq_getElem hi
      have h := nameLoop_get (tokenize condition).keyNameList 0 (condition, GoMap.empty) i _ hk
      simp only [Nat.zero_add] at h
      simp only [rewrite]
      rw [h]
      simp

/-- C5: for every condition and every caller value map (the empty map reads like
a nil one) the rewriter, a total function, produces a value map with exactly the
keys :VALUE0..:VALUE(M-1), M the number of discovered value tokens, and :VALUEi
holds the caller's entry for the i-th discovered value token when there is one
and nil when there is none. -/
theorem generated_values {V : Type} (condition : GoString) (values : GoMap (Option V)) :
    (∀ i k, (tokenize condition).valueNameList[i]? = some k →
      k.head? = some 58 ∧
      (∀ x, values k = some x →
        (rewrite condition values).ExpressionAttributeValues (replacedValue i) = some x) ∧
      (values k = none →
        (rewrite condition values).ExpressionAttributeValues (replacedValue i) = some none)) ∧
    (∀ key, (rewrite condition values).ExpressionAttributeValues key ≠ none ↔
      ∃ i, i < (tokenize condition).valueNameList.length ∧ key = replacedValue i) ∧
    (∀ i j, replacedValue i = replacedValue j → i = j) ∧
    (∀ i, replacedValue i = ascii ":VALUE" ++ sprintfD i ∧ decodeD (sprintfD i) = i ∧
      ∀ d ∈ sprintfD i, 48 ≤ d ∧ d ≤ 57) := by
  refine ⟨?_, ?_, fun i j h => replacedValue_injective h, fun i => ⟨rfl, decodeD_sprintfD i,
    sprintfD_digits i⟩⟩
  · intro i k hk
    have hmem : k ∈ (tokenize condition).valueNameList := List.getElem?_mem hk
    have hh := ((tokenize_tokens condition).2 k hmem).2
    have h := valueLoop_get values (tokenize condition).valueNameList 0
      ((nameLoop (tokenize condition).keyNameList 0 (condition, GoMap.empty)).1, GoMap.empty)
      i k hk
    simp only [Nat.zero_add] at h
    refine ⟨hh, ?_, ?_⟩
    · intro x hx
      simp only [rewrite]
      rw [h]
      simp [GoMap.index, hx]
    · intro hx
      simp only [rewrite]
      rw [h]
      simp [GoMap.index, hx]
  · intro key
    constructor
    · intro h
      by_contra hne
      apply h
      simp only [rewrite]
      rw [valueLoop_other]
      · rfl
      · intro j hj heq
        exact hne ⟨j, hj, by simpa using heq⟩
    · rintro ⟨i, hi, rfl⟩
      have hk : (tokenize condition).valueNameList[i]? =
          some ((tokenize condition).valueNameList[i]) := List.getElem?_eq_getElem hi
      have h := valueLoop_get values (tokenize condition).valueNameList 0
        ((nameLoop (tokenize condition).keyNameList 0 (condition, GoMap.empty)).1, GoMap.empty)
        i _ hk
      simp only [Nat.zero_add] at h
      simp only [rewrite]
      rw [h]
      simp

/-- C6, at a failing input: for the condition "#é" (bytes 0x23 0xC3 0xA9) the
token is the whole string, but the tokenizer records the five bytes
0x23 0xC3 0x83 0xC2 0xA9, because `string(condition[j])` re-encodes every byte
from 128 on as a two-byte rune; the recorded text does not occur in the
condition, which is sent unchanged, and "#KEY0" is mapped to the re-encoded
name. -/
theorem tokenize_accent :
    specTokens accentCondition = [[35, 195, 169]] ∧
    (tokenize accentCondition).keyNameList = [[35, 195, 131, 194, 169]] ∧
    (tokenize accentCondition).valueNameList = [] ∧
    (rewrite accentCondition (GoMap.empty : GoMap (Option GoValue))).condition
      = accentCondition ∧
    (rewrite accentCondition (GoMap.empty : GoMap (Option GoValue))).expressionAttributeNames
      (replacedKey 0) = some [195, 131, 194, 169] := by
  refine ⟨by decide, by decide, by decide, by rfl, by rfl⟩

/-- C7: the name map sent with the query is the generated name map overridden
by the caller's ExpressionAttributeNames: a key the caller supplies holds the
caller's value and every other key keeps its generated entry; so an empty (or
nil) override leaves the generated map unchanged, and an override of one
generated key replaces that entry only. -/
theorem queryAttributeNames_override {V : Type} (condition : GoString)
    (values : GoMap (Option V)) (callerNames : List (GoString × GoString))
    (hnodup : (callerNames.map Prod.fst).Nodup) :
    (∀ k, (∀ v, (k, v) ∈ callerNames →
        queryAttributeNames condition values callerNames k = some v) ∧
      ((∀ v, (k, v) ∉ callerNames) →
        queryAttributeNames condition values callerNames k
          = (rewrite condition values).expressionAttributeNames k)) ∧
    queryAttributeNames condition values [] = (rewrite condition values).expressionAttributeNames ∧
    (∀ i v, queryAttributeNames condition values [(replacedKey i, v)] (replacedKey i) = some v ∧
      ∀ key, key ≠ replacedKey i →
        queryAttributeNames condition values [(replacedKey i, v)] key
          = (rewrite condition values).expressionAttributeNames key) := by
  refine ⟨fun k => ⟨fun v hv => mergeNames_mem _ _ hnodup k v hv,
    fun h => mergeNames_not_mem _ _ k h⟩, rfl, ?_⟩
  intro i v
  refine ⟨mergeNames_mem _ _ (by simp) _ v (by simp), ?_⟩
  intro key hkey
  exact mergeNames_not_mem _ _ key (by simpa using hkey)

/-- Witness of `queryAttributeNames_override`: the caller overrides "#KEY0" of
the condition "#name = :val AND #age > :minAge" with "id"; "#KEY0" then holds
"id" and "#KEY1" still holds "age". -/
theorem queryAttributeNames_override_witness :
    queryAttributeNames roundTripCondition roundTripValues [(replacedKey 0, ascii "id")]
        (replacedKey 0) = some (ascii "id") ∧
    queryAttributeNames roundTripCondition roundTripValues [(replacedKey 0, ascii "id")]
        (replacedKey 1) = some (ascii "age") :=
  ⟨((queryAttributeNames_override roundTripCondition roundTripValues
      [(replacedKey 0, ascii "id")] (by simp)).1 (replacedKey 0)).1 (ascii "id") (by simp),
    by rfl⟩

/-- C8, at failing inputs: when the remote scan succeeds and unmarshaling the
first returned item fails with error e, `Scan` returns a nil error; when both
marshal calls of `UpdateItem` fail with e and the remote call succeeds,
`UpdateItem` has called the remote store and returns nil; `GetItem`, in the same
situation, returns e. -/
theorem scan_updateItem_drop_errors (e : Nat) (item : Nat) (items : List Nat)
    (lek : Option Nat) :
    Scan (fun _ : Unit => (Except.ok ⟨item :: items, lek⟩ : Except Nat (ScanOutput Nat Nat)))
        (fun _ => (Except.error e : Except Nat Nat)) () = (none, none, none) ∧
    UpdateItem (fun _ : Unit => (([] : List Nat), some e))
        (fun _ : Unit => (([] : List Nat), some e))
        (fun _ => (none : Option Nat)) (ascii "t") () GoMap.empty () (ascii "SET ") = none ∧
    GetItem (fun _ : Unit => (([] : List Nat), (none : Option Nat)))
        (fun _ _ => (Except.ok item : Except Nat Nat)) (fun _ => 1)
        (fun _ => (Except.error e : Except Nat Nat)) (ascii "t") () = (none, some e) ∧
    GetItem (fun _ : Unit => (([] : List Nat), some e))
        (fun _ _ => (Except.ok item : Except Nat Nat)) (fun _ => 1)
        (fun i => (Except.ok i : Except Nat Nat)) (ascii "t") () = (none, some e) := by
  refine ⟨rfl, rfl, rfl, rfl⟩

/-- C9: for every condition string the rewritten condition has as many segments
between spaces as the input, and in every segment the text before the first '#'
or ':' (the whole segment when it has neither) is the same as in the input. -/
theorem rewrite_keeps_text {V : Type} (condition : GoString) (values : GoMap (Option V)) :
    (splitOnSpace (rewrite condition values).condition).length
        = (splitOnSpace condition).length ∧
    ∀ i : Nat, ((splitOnSpace (rewrite condition values).condition)[i]?).map textOf
        = ((splitOnSpace condition)[i]?).map textOf := by
  have h : (splitOnSpace (rewrite condition values).condition).map textOf
      = (splitOnSpace condition).map textOf := by
    rw [← textsFrom_false, ← textsFrom_false]
    simp only [rewrite]
    rw [textsFrom_valueLoop _ _ _ _ (fun k hk => ((tokenize_tokens condition).2 k hk).1),
      textsFrom_nameLoop _ _ _ (fun k hk => ((tokenize_tokens condition).1 k hk).1)]
  constructor
  · simpa using congrArg List.length h
  · intro i
    have := congrArg (fun l : List GoString => l[i]?) h
    simpa [List.getElem?_map] using this

/-- C10: for every ASCII condition in which (a) no discovered token is a proper
substring of another discovered token and (b) no discovered token is a substring
of a generated name #KEYj, j < N, or :VALUEj, j < M, the rewritten condition is
the input with the token of every segment replaced in place by the generated
name whose index is the discovery index of the first occurrence of that token
text in its own list, everything else unchanged; the discovered tokens are the
tokens of the segments; and every token of the rewritten condition is a key of
the generated name map or value map: a name is mapped to the replaced token
without its '#', a value name to the caller's entry for the replaced token when
there is one and to nil when there is none. -/
theorem rewrite_substitutes {V : Type} (condition : GoString) (values : GoMap (Option V))
    (hascii : IsAscii condition)
    (ha : ∀ t ∈ (tokenize condition).keyNameList ++ (tokenize condition).valueNameList,
      ∀ u ∈ (tokenize condition).keyNameList ++ (tokenize condition).valueNameList,
        Occurs t u → t = u)
    (hb : ∀ t ∈ (tokenize condition).keyNameList ++ (tokenize condition).valueNameList,
      (∀ j, j < (tokenize condition).keyNameList.length → ¬ Occurs t (replacedKey j)) ∧
      (∀ j, j < (tokenize condition).valueNameList.length → ¬ Occurs t (replacedValue j))) :
    (rewrite condition values).condition
      = substituteTokens
          (generatedName (tokenize condition).keyNameList (tokenize condition).valueNameList)
          condition ∧
    (tokenize condition).keyNameList = (specTokens condition).filter isNameToken ∧
    (tokenize condition).valueNameList
      = (specTokens condition).filter (fun t => !isNameToken t) ∧
    (tokenize (rewrite condition values).condition).keyNameList
      = (tokenize condition).keyNameList.map
          (generatedName (tokenize condition).keyNameList (tokenize condition).valueNameList) ∧
    (tokenize (rewrite condition values).condition).valueNameList
      = (tokenize condition).valueNameList.map
          (generatedName (tokenize condition).keyNameList (tokenize condition).valueNameList) ∧
    (∀ k ∈ (tokenize condition).keyNameList,
      (rewrite condition values).expressionAttributeNames
        (generatedName (tokenize condition).keyNameList (tokenize condition).valueNameList k)
        = some (k.drop 1)) ∧
    (∀ k ∈ (tokenize condition).valueNameList,
      (∀ x, values k = some x →
        (rewrite condition values).ExpressionAttributeValues
          (generatedName (tokenize condition).keyNameList (tokenize condition).valueNameList k)
          = some x) ∧
      (values k = none →
        (rewrite condition values).ExpressionAttributeValues
          (generatedName (tokenize condition).keyNameList (tokenize condition).valueNameList k)
          = some none)) := by
  have heq := rewrite_condition_eq condition values hascii ha hb
  have htok := tokenize_substituteTokens condition hascii
  have hspec := tokenize_ascii condition hascii
  rw [heq]
  refine ⟨rfl, hspec.1, hspec.2, htok.1, htok.2,
    fun k hk => names_generatedName condition values k hk, ?_⟩
  intro k hk
  have hv := values_generatedName condition values k hk
  constructor
  · intro x hx
    rw [hv]
    simp [GoMap.index, hx]
  · intro hx
    rw [hv]
    simp [GoMap.index, hx]

/-- Witness of `rewrite_substitutes`: the condition
"#name = :val AND #age > :minAge" meets its hypotheses; the substituted
condition is "#KEY0 = :VALUE0 AND #KEY1 > :VALUE1", the name that replaces
":minAge" is ":VALUE1", and it holds the caller's value 21. -/
theorem rewrite_substitutes_witness :
    (rewrite roundTripCondition roundTripValues).condition
      = substituteTokens
          (generatedName (tokenize roundTripCondition).keyNameList
            (tokenize roundTripCondition).valueNameList)
          roundTripCondition ∧
    substituteTokens
        (generatedName (tokenize roundTripCondition).keyNameList
          (tokenize roundTripCondition).valueNameList)
        roundTripCondition
      = ascii "#KEY0 = :VALUE0 AND #KEY1 > :VALUE1" ∧
    generatedName (tokenize roundTripCondition).keyNameList
        (tokenize roundTripCondition).valueNameList (ascii ":minAge") = ascii ":VALUE1" ∧
    (rewrite roundTripCondition roundTripValues).ExpressionAttributeValues
        (generatedName (tokenize roundTripCondition).keyNameList
          (tokenize roundTripCondition).valueNameList (ascii ":minAge"))
      = some (some (GoValue.int 21)) :=
  ⟨(rewrite_substitutes roundTripCondition roundTripValues
      (by unfold IsAscii; decide) (by decide) (by decide)).1, by decide, by decide,
   ((rewrite_substitutes roundTripCondition roundTripValues
      (by unfold IsAscii; decide) (by decide) (by decide)).2.2.2.2.2.2
        (ascii ":minAge") (by decide)).1 (some (GoValue.int 21)) (by rfl)⟩

/-- C1, as stated, fails: "#a = :v OR #a = :w" has two occurrences of
'#'-tokens, and its rewritten condition "#KEY0 = :VALUE0 OR #KEY0 = :VALUE1"
does not contain the name #KEY1. -/
theorem rewrite_repeated_token :
    (tokenize repeatedCondition).keyNameList = [ascii "#a", ascii "#a"] ∧
    (tokenize repeatedCondition).valueNameList = [ascii ":v", ascii ":w"] ∧
    (rewrite repeatedCondition (GoMap.empty : GoMap (Option GoValue))).condition
      = ascii "#KEY0 = :VALUE0 OR #KEY0 = :VALUE1" ∧
    ¬ Occurs (replacedKey 1)
      (rewrite repeatedCondition (GoMap.empty : GoMap (Option GoValue))).condition := by
  have hc : (rewrite repeatedCondition (GoMap.empty : GoMap (Option GoValue))).condition
      = ascii "#KEY0 = :VALUE0 OR #KEY0 = :VALUE1" := by rfl
  refine ⟨by decide, by decide, hc, ?_⟩
  rw [hc]
  decide

/-- C1, amended: for every ASCII condition in which no discovered token is a
proper substring of another discovered token and none is a substring of a
generated name #KEYj, j < N, or :VALUEj, j < M, the '#'-tokens of the rewritten
condition are, in order, the names #KEYi with i the discovery index of the first
occurrence of the token text they replace, and its ':'-tokens the names :VALUEi
likewise; when the name tokens are pairwise distinct these are exactly the names
from #KEY0 to #KEY(N-1), when the value tokens are, exactly the names from
:VALUE0 to :VALUE(M-1); and no original token text occurs in the rewritten
condition. -/
theorem rewrite_names_exact {V : Type} (condition : GoString) (values : GoMap (Option V))
    (hascii : IsAscii condition)
    (ha : ∀ t ∈ (tokenize condition).keyNameList ++ (tokenize condition).valueNameList,
      ∀ u ∈ (tokenize condition).keyNameList ++ (tokenize condition).valueNameList,
        Occurs t u → t = u)
    (hb : ∀ t ∈ (tokenize condition).keyNameList ++ (tokenize condition).valueNameList,
      (∀ j, j < (tokenize condition).keyNameList.length → ¬ Occurs t (replacedKey j)) ∧
      (∀ j, j < (tokenize condition).valueNameList.length → ¬ Occurs t (replacedValue j))) :
    (tokenize (rewrite condition values).condition).keyNameList
      = (tokenize condition).keyNameList.map
          (fun k => replacedKey (firstIndex k (tokenize condition).keyNameList)) ∧
    (tokenize (rewrite condition values).condition).valueNameList
      = (tokenize condition).valueNameList.map
          (fun k => replacedValue (firstIndex k (tokenize condition).valueNameList)) ∧
    ((tokenize condition).keyNameList.Nodup →
      (tokenize (rewrite condition values).condition).keyNameList
        = (List.range (tokenize condition).keyNameList.length).map replacedKey) ∧
    ((tokenize condition).valueNameList.Nodup →
      (tokenize (rewrite condition values).condition).valueNameList
        = (List.range (tokenize condition).valueNameList.length).map replacedValue) ∧
    (∀ t ∈ (tokenize condition).keyNameList ++ (tokenize condition).valueNameList,
      ¬ Occurs t (rewrite condition values).condition) := by
  have heq := rewrite_condition_eq condition values hascii ha hb
  have htok := tokenize_substituteTokens condition hascii
  rw [heq]
  refine ⟨?_, ?_, ?_, ?_, ?_⟩
  · rw [htok.1]
    apply List.map_congr_left
    intro k hk
    have hh := ((tokenize_tokens condition).1 k hk).2
    simp [generatedName, hh]
  · rw [htok.2]
    apply List.map_congr_left
    intro k hk
    have hh := ((tokenize_tokens condition).2 k hk).2
    simp [generatedName, hh]
  · intro hnd
    rw [htok.1, map_generatedName_keys condition hnd]
  · intro hnd
    rw [htok.2, map_generatedName_values condition hnd]
  · intro t ht
    exact not_occurs_substituteTokens condition hascii hb t ht

/-- Witness of `rewrite_names_exact`: the condition "#id = :id AND #sk > :lo"
meets its hypotheses and has pairwise distinct tokens; the name tokens of its
rewritten condition are #KEY0, #KEY1 and the value tokens :VALUE0, :VALUE1. -/
theorem rewrite_names_exact_witness :
    (tokenize (rewrite plainCondition (GoMap.empty : GoMap (Option GoValue))).condition).keyNameList
      = [replacedKey 0, replacedKey 1] ∧
    (tokenize (rewrite plainCondition (GoMap.empty : GoMap (Option GoValue))).condition).valueNameList
      = [replacedValue 0, replacedValue 1] :=
  ⟨(rewrite_names_exact plainCondition (GoMap.empty : GoMap (Option GoValue))
      (by unfold IsAscii; decide) (by decide) (by decide)).2.2.1 (by decide),
   (rewrite_names_exact plainCondition (GoMap.empty : GoMap (Option GoValue))
      (by unfold IsAscii; decide) (by decide) (by decide)).2.2.2.1 (by decide)⟩
end Limitless
